import Mathlib

set_option maxRecDepth 8192

/-!
Verification of the batch translation / revision engine:
prompt building, retry policy, batch orchestration, free-text JSON
extraction and the streaming JSON-array parser.
-/

/-- Substring test on character lists: does `hay` start with `needle`? -/
def startsWithL : List Char → List Char → Bool
  | _, [] => true
  | [], _ :: _ => false
  | h :: t, n :: m => h == n && startsWithL t m

/-- Substring test on character lists: does `needle` occur inside `hay`?
Mirrors JavaScript `String.prototype.includes`. -/
def hasSub : List Char → List Char → Bool
  | [], n => n.isEmpty
  | h :: t, n => startsWithL (h :: t) n || hasSub t n

/-- `needle.includes` on strings, via the character lists. -/
def containsSub (hay needle : String) : Bool :=
  hasSub hay.toList needle.toList

/-- JavaScript object-key assignment `r[k] = v` on an insertion-ordered
record: overwrite in place when the key exists, append otherwise. -/
def setKey (r : List (String × α)) (k : String) (v : α) : List (String × α) :=
  if r.any (fun p => p.1 == k) then
    r.map (fun p => if p.1 == k then (k, v) else p)
  else r ++ [(k, v)]

/-- Key lookup in an insertion-ordered record. -/
def lookupKey (r : List (String × α)) (k : String) : Option α :=
  match r with
  | [] => none
  | p :: rest => if p.1 == k then some p.2 else lookupKey rest k

example : containsSub "hello 429 world" "429" = true := by decide
example : containsSub "hello" "quota" = false := by decide

/-! ### Retry policy (the `withRetry` of packages/translator/src/translator.ts
and the different `withRetry` of src/unnamed/part_009) -/

/-- Rate-limit classification of an error message: case-sensitive substring
match against the three fixed indicators. -/
def isRateLimited (msg : String) : Bool :=
  containsSub msg "429" || containsSub msg "Resource exhausted" || containsSub msg "quota"

/-- The message of the distinguished `RateLimitError` (its default
constructor argument). -/
def rateLimitMessage : String := "Rate limit exceeded. Maximum retry attempts reached."

/-- Observable outcome of `withRetry`: a successful value, the original
error re-raised, or a `RateLimitError`. -/
inductive RetryOutcome (α : Type) where
  | ok (a : α)
  | raised (msg : String)
  | rateLimit (msg : String)

/-- The retry loop of `withRetry`, from a given attempt index.  The action
is modelled as a function from the attempt index to its result.  Returns
the outcome together with the total number of invocations of the action.
The first argument is structural fuel kept equal to
`maxAttempts - attempt`; both exhaustion branches mirror the unreachable
trailing `throw new RateLimitError()` after the loop. -/
def withRetryFrom (action : Nat → Except String α) (maxAttempts : Nat) :
    Nat → Nat → RetryOutcome α × Nat
  | 0, attempt => (.rateLimit rateLimitMessage, attempt)
  | fuel + 1, attempt =>
    if attempt < maxAttempts then
      match action attempt with
      | .ok a => (.ok a, attempt + 1)
      | .error msg =>
        if isRateLimited msg then
          if attempt = maxAttempts - 1 then (.rateLimit rateLimitMessage, attempt + 1)
          else withRetryFrom action maxAttempts fuel (attempt + 1)
        else (.raised msg, attempt + 1)
    else (.rateLimit rateLimitMessage, attempt)

/-- `withRetry(action, maxAttempts)`: run the loop from attempt 0. -/
def withRetry (action : Nat → Except String α) (maxAttempts : Nat) :
    RetryOutcome α × Nat :=
  withRetryFrom action maxAttempts maxAttempts 0

example : withRetry (fun _ => (.error "429" : Except String Nat)) 3
    = (.rateLimit rateLimitMessage, 3) := by rfl
example : withRetry (fun i => if i = 0 then (.error "429" : Except String Nat) else .ok 7) 3
    = (.ok 7, 2) := by rfl
example : withRetry (fun _ => (.error "Authentication failed" : Except String Nat)) 3
    = (.raised "Authentication failed", 1) := by rfl

/-- When every attempt from `attempt` on fails rate-limited, the loop ends
in a `RateLimitError` after invoking the action for every remaining
attempt index. -/
theorem withRetryFrom_allLimited {α : Type} (action : Nat → Except String α)
    (maxAttempts : Nat) :
    ∀ fuel attempt, maxAttempts - attempt = fuel → attempt < maxAttempts →
    (∀ i, attempt ≤ i → i < maxAttempts →
      ∃ msg, action i = .error msg ∧ isRateLimited msg = true) →
    withRetryFrom action maxAttempts fuel attempt
      = (.rateLimit rateLimitMessage, maxAttempts) := by
  intro fuel
  induction fuel with
  | zero => intro attempt h1 h2 _; omega
  | succ n ih =>
    intro attempt h1 h2 hall
    obtain ⟨msg, hmsg, hrl⟩ := hall attempt le_rfl h2
    simp only [withRetryFrom, if_pos h2, hmsg, hrl, if_true]
    by_cases hlast : attempt = maxAttempts - 1
    · have h3 : attempt + 1 = maxAttempts := by omega
      rw [if_pos hlast, h3]
    · rw [if_neg hlast]
      exact ih (attempt + 1) (by omega) (by omega) (fun i hi1 hi2 => hall i (by omega) hi2)

/-- The `withRetry` of packages/translator re-raises a non-rate-limited
error unchanged after exactly one invocation of the action (a message
containing none of the case-sensitive substrings "429",
"Resource exhausted", "quota"); and when every attempt fails rate-limited
it invokes the action exactly `maxAttempts` times and raises a
`RateLimitError` with the message
"Rate limit exceeded. Maximum retry attempts reached." instead of the
original error (the source default is `maxAttempts = 3`). -/
theorem withRetry_spec {α : Type} (action : Nat → Except String α) (maxAttempts : Nat)
    (hm : 0 < maxAttempts) :
    (∀ msg, action 0 = .error msg →
      containsSub msg "429" = false → containsSub msg "Resource exhausted" = false →
      containsSub msg "quota" = false →
      withRetry action maxAttempts = (.raised msg, 1))
    ∧ ((∀ i, i < maxAttempts → ∃ msg, action i = .error msg ∧ isRateLimited msg = true) →
      withRetry action maxAttempts = (.rateLimit rateLimitMessage, maxAttempts)) := by
  constructor
  · intro msg hmsg h1 h2 h3
    have hnot : isRateLimited msg = false := by simp [isRateLimited, h1, h2, h3]
    unfold withRetry
    obtain ⟨k, hk⟩ : ∃ k, maxAttempts = k + 1 := ⟨maxAttempts - 1, by omega⟩
    rw [hk]
    simp only [withRetryFrom, hmsg, hnot]
    rw [if_pos (by omega : (0 : Nat) < k + 1)]
    simp
  · intro hall
    exact withRetryFrom_allLimited action maxAttempts maxAttempts 0 (by omega) hm
      (fun i _ h2 => hall i h2)

/-- In packages/translator, a non-rate-limit error raises after exactly
one call, and three consecutive rate-limited failures end in the
`RateLimitError` after exactly three calls. -/
theorem withRetry_spec_witness :
    withRetry (fun _ => (.error "Authentication failed" : Except String Nat)) 3
      = (.raised "Authentication failed", 1)
    ∧ withRetry (fun _ => (.error "HTTP 429" : Except String Nat)) 3
      = (.rateLimit rateLimitMessage, 3) := by
  constructor
  · exact (withRetry_spec (fun _ => (.error "Authentication failed" : Except String Nat))
      3 (by decide)).1 "Authentication failed" rfl (by decide) (by decide) (by decide)
  · exact (withRetry_spec (fun _ => (.error "HTTP 429" : Except String Nat))
      3 (by decide)).2 (fun i _ => ⟨"HTTP 429", rfl, by decide⟩)

/-- The retry loop of the `withRetry` in src/unnamed/part_009, from a
given attempt index: `for (attempt = 0; attempt <= maxRetries; attempt++)`,
re-throwing the original error when the failure is not rate-limited or
the last allowed attempt (`attempt === maxRetries`) failed.  Fuel is kept
equal to `maxRetries + 1 - attempt`; the exhaustion branch mirrors the
trailing `throw lastError` after the loop with `lastError`'s initial
value (unreachable: the last iteration's catch always throws). -/
def withRetryLoopFrom (action : Nat → Except String α) (maxRetries : Nat) :
    Nat → Nat → RetryOutcome α × Nat
  | 0, attempt => (.raised "Max retries exceeded", attempt)
  | fuel + 1, attempt =>
    if attempt ≤ maxRetries then
      match action attempt with
      | .ok a => (.ok a, attempt + 1)
      | .error msg =>
        if isRateLimited msg = false ∨ attempt = maxRetries then
          (.raised msg, attempt + 1)
        else withRetryLoopFrom action maxRetries fuel (attempt + 1)
    else (.raised "Max retries exceeded", attempt)

/-- The `withRetry` of src/unnamed/part_009 (the CLI's translator
service): a zero-based loop bounded inclusively by `maxRetries`
(source default 3), so up to `maxRetries + 1` invocations. -/
def withRetryLoop (action : Nat → Except String α) (maxRetries : Nat) :
    RetryOutcome α × Nat :=
  withRetryLoopFrom action maxRetries (maxRetries + 1) 0

example : withRetryLoop (fun _ => (.error "429" : Except String Nat)) 3
    = (.raised "429", 4) := by rfl
example : withRetryLoop (fun _ => (.error "Authentication failed" : Except String Nat)) 3
    = (.raised "Authentication failed", 1) := by rfl
example : withRetryLoop (fun i => if i = 0 then (.error "429" : Except String Nat) else .ok 7) 3
    = (.ok 7, 2) := by rfl

/-- When every attempt up to `maxRetries` fails rate-limited, the
part_009 loop invokes the action for every index `0 .. maxRetries` and
re-throws the error of the last attempt. -/
theorem withRetryLoopFrom_allLimited {α : Type} (action : Nat → Except String α)
    (maxRetries : Nat) (msgN : String) (hN : action maxRetries = .error msgN) :
    ∀ fuel attempt, maxRetries + 1 - attempt = fuel → attempt ≤ maxRetries →
    (∀ i, attempt ≤ i → i ≤ maxRetries →
      ∃ msg, action i = .error msg ∧ isRateLimited msg = true) →
    withRetryLoopFrom action maxRetries fuel attempt
      = (.raised msgN, maxRetries + 1) := by
  intro fuel
  induction fuel with
  | zero => intro attempt h1 h2 _; omega
  | succ n ih =>
    intro attempt h1 h2 hall
    obtain ⟨msg, hmsg, hrl⟩ := hall attempt le_rfl h2
    simp only [withRetryLoopFrom, if_pos h2, hmsg]
    by_cases hlast : attempt = maxRetries
    · rw [if_pos (Or.inr hlast)]
      subst hlast
      have h3 := hmsg.symm.trans hN
      injection h3 with hme
      rw [hme]
    · rw [if_neg (by
        push_neg
        exact ⟨by simp [hrl], hlast⟩)]
      exact ih (attempt + 1) (by omega) (by omega) (fun i hi1 hi2 => hall i (by omega) hi2)

/-- Counterexample for C3: under persistent rate-limiting at the shared
default of 3, the two cited `withRetry` implementations disagree — the
packages/translator one invokes the action 3 times and raises the
`RateLimitError` message, while the part_009 one invokes it 4 times and
re-throws the original provider error (it has no `RateLimitError`), so
"exactly maxAttempts calls then RateLimitError" fails for the latter. -/
theorem withRetry_loop_cex :
    withRetry (fun _ => (.error "HTTP 429" : Except String Nat)) 3
      = (.rateLimit rateLimitMessage, 3)
    ∧ withRetryLoop (fun _ => (.error "HTTP 429" : Except String Nat)) 3
      = (.raised "HTTP 429", 4)
    ∧ (RetryOutcome.raised "HTTP 429" : RetryOutcome Nat)
        ≠ RetryOutcome.rateLimit rateLimitMessage
    ∧ (4 : Nat) ≠ 3 :=
  ⟨by rfl, by rfl, fun h => RetryOutcome.noConfusion h, by decide⟩

/-- C3 (amended): the `withRetry` of packages/translator/src/translator.ts
re-raises a non-rate-limited error unchanged after exactly one invocation
of the action and, under persistent rate-limiting, invokes the action
exactly `maxAttempts` times (default 3) and raises a `RateLimitError`
with message "Rate limit exceeded. Maximum retry attempts reached."; the
second cited implementation (src/unnamed/part_009) likewise re-raises a
non-rate-limited error after exactly one invocation, but its loop runs
`attempt = 0 .. maxRetries` inclusive: under persistent rate-limiting it
invokes the action exactly `maxRetries + 1` times (4 at its default 3)
and re-throws the original provider error unchanged — it raises no
`RateLimitError`. -/
theorem withRetry_spec_amended {α : Type} (action : Nat → Except String α)
    (maxAttempts maxRetries : Nat) (hm : 0 < maxAttempts) :
    (∀ msg, action 0 = .error msg →
      containsSub msg "429" = false → containsSub msg "Resource exhausted" = false →
      containsSub msg "quota" = false →
      withRetry action maxAttempts = (.raised msg, 1)
      ∧ withRetryLoop action maxRetries = (.raised msg, 1))
    ∧ ((∀ i, i < maxAttempts → ∃ msg, action i = .error msg ∧ isRateLimited msg = true) →
      withRetry action maxAttempts = (.rateLimit rateLimitMessage, maxAttempts))
    ∧ (∀ msgN, action maxRetries = .error msgN →
      (∀ i, i ≤ maxRetries → ∃ msg, action i = .error msg ∧ isRateLimited msg = true) →
      withRetryLoop action maxRetries = (.raised msgN, maxRetries + 1)) := by
  refine ⟨?_, (withRetry_spec action maxAttempts hm).2, ?_⟩
  · intro msg hmsg h1 h2 h3
    refine ⟨(withRetry_spec action maxAttempts hm).1 msg hmsg h1 h2 h3, ?_⟩
    have hnot : isRateLimited msg = false := by simp [isRateLimited, h1, h2, h3]
    unfold withRetryLoop
    simp [withRetryLoopFrom, hmsg, hnot]
  · intro msgN hN hall
    exact withRetryLoopFrom_allLimited action maxRetries msgN hN (maxRetries + 1) 0
      (by omega) (by omega) (fun i _ hi2 => hall i hi2)

/-- Witness for C3: at the shared default of 3, an "Authentication failed"
error raises after exactly one call in both implementations; persistent
"HTTP 429" failures end in the `RateLimitError` after exactly 3 calls in
packages/translator but re-throw "HTTP 429" itself after 4 calls in
part_009. -/
theorem withRetry_spec_amended_witness :
    (withRetry (fun _ => (.error "Authentication failed" : Except String Nat)) 3
        = (.raised "Authentication failed", 1)
      ∧ withRetryLoop (fun _ => (.error "Authentication failed" : Except String Nat)) 3
        = (.raised "Authentication failed", 1))
    ∧ withRetry (fun _ => (.error "HTTP 429" : Except String Nat)) 3
        = (.rateLimit rateLimitMessage, 3)
    ∧ withRetryLoop (fun _ => (.error "HTTP 429" : Except String Nat)) 3
        = (.raised "HTTP 429", 4) := by
  refine ⟨?_, ?_, ?_⟩
  · exact (withRetry_spec_amended
      (fun _ => (.error "Authentication failed" : Except String Nat)) 3 3 (by decide)).1
      "Authentication failed" rfl (by decide) (by decide) (by decide)
  · exact (withRetry_spec_amended
      (fun _ => (.error "HTTP 429" : Except String Nat)) 3 3 (by decide)).2.1
      (fun i _ => ⟨"HTTP 429", rfl, by decide⟩)
  · exact (withRetry_spec_amended
      (fun _ => (.error "HTTP 429" : Except String Nat)) 3 3 (by decide)).2.2
      "HTTP 429" rfl (fun i _ => ⟨"HTTP 429", rfl, by decide⟩)

/-! ### Prompt builder (`buildSystemPrompt` in packages/core/src/prompts.ts, with
`LANGUAGE_NAMES` from packages/core/src/consts.ts) -/

/-- The `LANGUAGE_NAMES` lookup table. -/
def languageNames : List (String × String) :=
  [("de", "German"), ("fr", "French"), ("es", "Spanish"), ("it", "Italian"),
   ("pt", "Portuguese"), ("nl", "Dutch"), ("pl", "Polish"), ("ja", "Japanese"),
   ("zh", "Chinese (Simplified)"), ("ko", "Korean"), ("ru", "Russian"),
   ("tr", "Turkish"), ("ar", "Arabic")]

/-- `LANGUAGE_NAMES[targetLanguage] ?? targetLanguage`. -/
def resolveLanguageName (lang : String) : String :=
  (lookupKey languageNames lang).getD lang

/-- Text of the system prompt before the interpolated language name. -/
def sysPromptPre : String :=
  "You are a professional translator specializing in software localization. \nTranslate the following UI text from English to "

/-- Text of the system prompt after the interpolated language name. -/
def sysPromptPost : String :=
  ".\n\nImportant guidelines:\n- Preserve any placeholders like \x7bname\x7d, \x7bcount\x7d, \x7b\x7bvariable\x7d\x7d, etc.\n- Keep the same tone and formality level\n- Use natural, idiomatic expressions in the target language\n- Maintain any HTML tags or markdown formatting\n- Do not add or remove content, only translate"

/-- The header line introducing the product-context block. -/
def contextHeader : String := "\n\nProduct context for better translations:\n"

/-- `buildSystemPrompt(targetLanguage, context)`: the base prompt with the
resolved language name; the context block is appended only when `context`
is non-empty (JavaScript truthiness of a string). -/
def buildSystemPrompt (lang ctx : String) : String :=
  let base := sysPromptPre ++ resolveLanguageName lang ++ sysPromptPost
  if ctx ≠ "" then base ++ contextHeader ++ ctx else base

example : containsSub (buildSystemPrompt "fr" "") "French" = true := by decide
example : containsSub (buildSystemPrompt "fr" "") "Product context" = false := by decide
example : containsSub (buildSystemPrompt "fr" "a food app") "Product context" = true := by decide

/-! ### Free-text JSON extraction: the greedy regexes of
`translateMessages` (legacy) and `adviseWebsite` -/

/-- The prefix of `s` ending at the last occurrence of `cl` (inclusive);
`none` when `cl` does not occur in `s`. -/
def upToLast (cl : Char) : List Char → Option (List Char)
  | [] => none
  | c :: rest =>
    match upToLast cl rest with
    | some sp => some (c :: sp)
    | none => if c = cl then some [c] else none

/-- Embedding of the greedy extraction regex (`exec` of the pattern
"op, anything, cl" with a greedy any-character star): the match runs from
the first occurrence of `op` that has an occurrence of `cl` after it, to
the last occurrence of `cl` in the whole text.  When the first `op` has no
later `cl`, no later `op` has one either, so there is no match.
Instantiated with braces by the legacy `translateMessages` and with square
brackets by `adviseWebsite`. -/
def regexSpan (op cl : Char) : List Char → Option (List Char)
  | [] => none
  | c :: rest =>
    if c = op then
      match upToLast cl rest with
      | some sp => some (op :: sp)
      | none => none
    else regexSpan op cl rest

/-- Index of the first occurrence of a character. -/
def firstIdxOf (op : Char) : List Char → Option Nat
  | [] => none
  | c :: rest => if c = op then some 0 else (firstIdxOf op rest).map (· + 1)

/-- Index of the last occurrence of a character. -/
def lastIdxOf (cl : Char) : List Char → Option Nat
  | [] => none
  | c :: rest =>
    match lastIdxOf cl rest with
    | some j => some (j + 1)
    | none => if c = cl then some 0 else none

theorem upToLast_eq_lastIdxOf (cl : Char) (s : List Char) :
    upToLast cl s = (lastIdxOf cl s).map (fun j => s.take (j + 1)) := by
  induction s with
  | nil => rfl
  | cons c rest ih =>
    simp only [upToLast, lastIdxOf, ih]
    cases lastIdxOf cl rest with
    | some j => simp [List.take_succ_cons]
    | none =>
      by_cases hc : c = cl
      · simp [hc]
      · simp [hc]

/-- Modelled from the spec: "bracket-matching from the first occurrence of
the opener to the structurally-correct matching close" — scan from the
first opener, counting nesting depth, and stop at the close bracket that
returns the depth to zero.  This is the behaviour the spec attributes to
the batch free-text reconciler; it exists in the source only as the
streaming scanner, not in the batch path. -/
def bracketMatchFrom (op cl : Char) : Nat → List Char → Option (List Char)
  | _, [] => none
  | depth, c :: rest =>
    if c = cl then
      if depth = 1 then some [c]
      else (bracketMatchFrom op cl (depth - 1) rest).map (c :: ·)
    else if c = op then (bracketMatchFrom op cl (depth + 1) rest).map (c :: ·)
    else (bracketMatchFrom op cl depth rest).map (c :: ·)

/-- Modelled from the spec: the bracket-matched span from the first
occurrence of the opener. -/
def bracketMatchSpan (op cl : Char) : List Char → Option (List Char)
  | [] => none
  | c :: rest =>
    if c = op then (bracketMatchFrom op cl 1 rest).map (c :: ·)
    else bracketMatchSpan op cl rest

/-- C4 counterexample: on a response whose JSON object is followed by a
stray close brace, the extraction used by the code (greedy regex) spans to
the last close brace of the text, while bracket-matching would stop at the
structurally matching one; the two spans differ, refuting the claim that
the reconciler parses exactly the bracket-matched substring. -/
theorem regexSpan_not_bracketMatch :
    regexSpan '\x7b' '\x7d' ("\x7b\"a\":\"1\"\x7d tail \x7d".toList)
        = some ("\x7b\"a\":\"1\"\x7d tail \x7d".toList)
    ∧ bracketMatchSpan '\x7b' '\x7d' ("\x7b\"a\":\"1\"\x7d tail \x7d".toList)
        = some ("\x7b\"a\":\"1\"\x7d".toList)
    ∧ ("\x7b\"a\":\"1\"\x7d tail \x7d".toList) ≠ ("\x7b\"a\":\"1\"\x7d".toList) :=
  ⟨by decide, by decide, by decide⟩

/-- C4 (amended): the free-text reconciler extracts the substring running
from the first occurrence of the opener to the LAST occurrence of the
closer in the response (the greedy regex match), not to the structurally
matching close bracket; there is a match exactly when some closer follows
the first opener. -/
theorem regexSpan_first_to_last (op cl : Char) (s : List Char) :
    regexSpan op cl s =
      match firstIdxOf op s, lastIdxOf cl s with
      | some i, some j => if i < j then some ((s.drop i).take (j - i + 1)) else none
      | _, _ => none := by
  induction s with
  | nil => rfl
  | cons c rest ih =>
    by_cases hop : c = op
    · simp only [regexSpan, firstIdxOf, lastIdxOf, if_pos hop, upToLast_eq_lastIdxOf]
      cases hL : lastIdxOf cl rest with
      | some j =>
        simp [hop, List.take_succ_cons, Nat.sub_zero]
      | none =>
        by_cases hcl : c = cl
        · simp [hcl]
        · simp [hcl]
    · simp only [regexSpan, firstIdxOf, lastIdxOf, if_neg hop, ih]
      cases hF : firstIdxOf op rest with
      | some i =>
        cases hL : lastIdxOf cl rest with
        | some j =>
          simp only [Option.map_some']
          by_cases hij : i < j
          · rw [if_pos hij, if_pos (show i + 1 < j + 1 by omega), List.drop_succ_cons]
            have harith : j + 1 - (i + 1) + 1 = j - i + 1 := by omega
            rw [harith]
          · rw [if_neg hij, if_neg (show ¬(i + 1 < j + 1) by omega)]
        | none =>
          by_cases hcl : c = cl
          · simp [hcl, Option.map_some']
          · simp [hcl]
      | none =>
        cases hL : lastIdxOf cl rest with
        | some j => simp
        | none =>
          by_cases hcl : c = cl
          · simp [hcl]
          · simp [hcl]

/-! ### Substring occurrences -/

theorem startsWithL_iff (hay needle : List Char) :
    startsWithL hay needle = true ↔ ∃ t, hay = needle ++ t := by
  induction needle generalizing hay with
  | nil => simp [startsWithL]
  | cons n m ih =>
    cases hay with
    | nil => simp [startsWithL]
    | cons h t =>
      simp only [startsWithL, Bool.and_eq_true, beq_iff_eq, ih]
      constructor
      · rintro ⟨rfl, r, rfl⟩
        exact ⟨r, rfl⟩
      · rintro ⟨r, hr⟩
        rw [List.cons_append] at hr
        injection hr with h1 h2
        exact ⟨h1, r, h2⟩

theorem hasSub_iff_occurs (hay needle : List Char) :
    hasSub hay needle = true ↔ ∃ p q, hay = p ++ needle ++ q := by
  induction hay with
  | nil =>
    cases needle with
    | nil => simp [hasSub]
    | cons n m => simp [hasSub, List.isEmpty]
  | cons h t ih =>
    simp only [hasSub, Bool.or_eq_true, startsWithL_iff, ih]
    constructor
    · rintro (⟨r, hr⟩ | ⟨p, q, hpq⟩)
      · exact ⟨[], r, by simp [hr]⟩
      · exact ⟨h :: p, q, by simp [hpq]⟩
    · rintro ⟨p, q, hpq⟩
      cases p with
      | nil =>
        left
        exact ⟨q, by simpa using hpq⟩
      | cons p0 ps =>
        right
        rw [List.cons_append, List.cons_append] at hpq
        injection hpq with h1 h2
        exact ⟨ps, q, by simpa using h2⟩

/-- Where an occurrence of `n` inside `a ++ b` can lie: wholly in `a`,
wholly in `b`, or straddling the boundary with a nonempty prefix of `n`
ending `a` and the matching nonempty remainder starting `b`. -/
theorem occurs_append_cases {n a b : List Char} (h : ∃ p q, a ++ b = p ++ n ++ q) :
    (∃ p q, a = p ++ n ++ q) ∨ (∃ p q, b = p ++ n ++ q)
    ∨ (∃ k, 0 < k ∧ k < n.length
        ∧ (∃ p, a = p ++ n.take k) ∧ (∃ q, b = n.drop k ++ q)) := by
  obtain ⟨p, q, hpq⟩ := h
  have ha : a = ((p ++ n) ++ q).take a.length := by
    rw [← hpq, List.take_append_eq_append_take, List.take_length, Nat.sub_self,
      List.take_zero, List.append_nil]
  have hb : b = ((p ++ n) ++ q).drop a.length := by
    rw [← hpq]
    have : (a ++ b).drop a.length = a.drop a.length ++ b.drop (a.length - a.length) := by
      rw [List.drop_append_eq_append_drop]
    simp at this
    simp [this]
  by_cases h1 : p.length + n.length ≤ a.length
  · left
    rw [List.take_append_eq_append_take, List.take_of_length_le (by simp; omega)] at ha
    exact ⟨p, _, ha⟩
  · by_cases h2 : a.length ≤ p.length
    · right; left
      rw [List.drop_append_eq_append_drop, List.drop_append_eq_append_drop] at hb
      have e1 : a.length - p.length = 0 := by omega
      have e2 : a.length - (p ++ n).length = 0 := by simp; omega
      rw [e1, e2, List.drop_zero, List.drop_zero] at hb
      exact ⟨p.drop a.length, q, by rw [hb, List.append_assoc]⟩
    · right; right
      refine ⟨a.length - p.length, by omega, by omega, ⟨p, ?_⟩, ⟨q, ?_⟩⟩
      · rw [List.take_append_eq_append_take, List.take_append_eq_append_take] at ha
        have e2 : a.length - (p ++ n).length = 0 := by simp; omega
        rw [List.take_of_length_le (by omega), e2, List.take_zero, List.append_nil] at ha
        exact ha
      · rw [List.drop_append_eq_append_drop, List.drop_append_eq_append_drop] at hb
        have e2 : a.length - (p ++ n).length = 0 := by simp; omega
        rw [List.drop_of_length_le (by omega), e2, List.drop_zero, List.nil_append] at hb
        exact hb

theorem containsSub_append_right (a b n : String) (h : containsSub b n = true) :
    containsSub (a ++ b) n = true := by
  unfold containsSub at *
  rw [hasSub_iff_occurs] at *
  obtain ⟨p, q, hpq⟩ := h
  refine ⟨a.toList ++ p, q, ?_⟩
  have hab : (a ++ b).toList = a.toList ++ b.toList := by
    simp [String.toList, String.data_append]
  rw [hab, hpq]
  simp [List.append_assoc]

theorem containsSub_suffix (a b : String) : containsSub (a ++ b) b = true := by
  unfold containsSub
  rw [hasSub_iff_occurs]
  exact ⟨a.toList, [], by simp [String.toList, String.data_append]⟩

theorem containsSub_append_left (a b n : String) (h : containsSub a n = true) :
    containsSub (a ++ b) n = true := by
  unfold containsSub at *
  rw [hasSub_iff_occurs] at *
  obtain ⟨p, q, hpq⟩ := h
  refine ⟨p, q ++ b.toList, ?_⟩
  have hab : (a ++ b).toList = a.toList ++ b.toList := by
    simp [String.toList, String.data_append]
  rw [hab, hpq]
  simp [List.append_assoc]

/-- If the resolved language name does not contain the "Product context"
marker, neither does the context-free system prompt built around it: the
marker cannot occur inside either fixed prompt fragment nor straddle a
boundary with the name. -/
theorem base_prompt_no_marker (name : List Char)
    (h : hasSub name "Product context".toList = false) :
    hasSub (sysPromptPre.toList ++ (name ++ sysPromptPost.toList))
      "Product context".toList = false := by
  rw [Bool.eq_false_iff]
  intro hc
  rw [hasSub_iff_occurs] at hc
  rcases occurs_append_cases hc with h1 | h2 | ⟨k, hk0, hk15, ⟨p, hp⟩, _⟩
  · have ht : hasSub sysPromptPre.toList "Product context".toList = true := by
      rw [hasSub_iff_occurs]; exact h1
    have hf : hasSub sysPromptPre.toList "Product context".toList = false := by decide
    rw [hf] at ht; exact Bool.noConfusion ht
  · rcases occurs_append_cases h2 with h2a | h2b | ⟨k, hk0, hk15, _, ⟨q, hq⟩⟩
    · have ht : hasSub name "Product context".toList = true := by
        rw [hasSub_iff_occurs]; exact h2a
      rw [h] at ht; exact Bool.noConfusion ht
    · have ht : hasSub sysPromptPost.toList "Product context".toList = true := by
        rw [hasSub_iff_occurs]; exact h2b
      have hf : hasSub sysPromptPost.toList "Product context".toList = false := by decide
      rw [hf] at ht; exact Bool.noConfusion ht
    · have hsw : startsWithL sysPromptPost.toList
          (("Product context".toList).drop k) = true := by
        rw [startsWithL_iff]; exact ⟨q, hq⟩
      rw [show ("Product context".toList).length = 15 from rfl] at hk15
      have hall : ∀ k, k < 15 → 0 < k →
          startsWithL sysPromptPost.toList (("Product context".toList).drop k) = false := by
        decide
      rw [hall k hk15 hk0] at hsw; exact Bool.noConfusion hsw
  · have hsw : startsWithL sysPromptPre.toList.reverse
        ((("Product context".toList).take k).reverse) = true := by
      rw [startsWithL_iff]
      exact ⟨p.reverse, by rw [hp, List.reverse_append]⟩
    rw [show ("Product context".toList).length = 15 from rfl] at hk15
    have hall : ∀ k, k < 15 → 0 < k →
        startsWithL sysPromptPre.toList.reverse
          ((("Product context".toList).take k).reverse) = false := by
      decide
    rw [hall k hk15 hk0] at hsw; exact Bool.noConfusion hsw

/-- C9 counterexample: as stated, the claim fails for the target language
"Product context" — an unknown code is used verbatim in the prompt, so the
marker is present even though the context is empty. -/
theorem buildSystemPrompt_context_cex :
    containsSub (buildSystemPrompt "Product context" "") "Product context" = true
    ∧ ("" : String) = "" := by
  exact ⟨by decide, rfl⟩

/-- C9 (amended): for every target language, the prompt contains the
literal context string and the "Product context" marker whenever the
context is non-empty; when the context is empty the marker is absent
provided the resolved language name does not itself contain the marker
(always the case for the codes of the lookup table). -/
theorem buildSystemPrompt_context (lang ctx : String) :
    (ctx ≠ "" →
      containsSub (buildSystemPrompt lang ctx) "Product context" = true
      ∧ containsSub (buildSystemPrompt lang ctx) ctx = true)
    ∧ (ctx = "" → containsSub (resolveLanguageName lang) "Product context" = false →
      containsSub (buildSystemPrompt lang ctx) "Product context" = false) := by
  constructor
  · intro hctx
    unfold buildSystemPrompt
    rw [if_pos hctx]
    constructor
    · have h1 : containsSub contextHeader "Product context" = true := by decide
      have h2 := containsSub_append_right (sysPromptPre ++ resolveLanguageName lang ++ sysPromptPost)
        contextHeader "Product context" h1
      exact containsSub_append_left _ ctx _ h2
    · exact containsSub_suffix _ ctx
  · intro hctx hname
    unfold buildSystemPrompt
    rw [if_neg (by simp [hctx])]
    unfold containsSub
    have he : (sysPromptPre ++ resolveLanguageName lang ++ sysPromptPost).toList
        = sysPromptPre.toList ++ ((resolveLanguageName lang).toList ++ sysPromptPost.toList) := by
      simp [String.toList, String.data_append]
    rw [he]
    exact base_prompt_no_marker (resolveLanguageName lang).toList hname

/-! ### JSON values and `JSON.parse` -/

/-- A parsed JSON value.  Numbers keep their raw source token (no claim
depends on numeric value, only on which texts parse). -/
inductive Json where
  | null
  | bool (b : Bool)
  | num (tok : String)
  | str (s : String)
  | arr (elems : List Json)
  | obj (fields : List (String × Json))

/-- The four JSON whitespace characters. -/
def isJsonWs (c : Char) : Bool := c = ' ' || c = '\t' || c = '\n' || c = '\r'

/-- Drop leading JSON whitespace. -/
def skipWs : List Char → List Char
  | [] => []
  | c :: rest => if isJsonWs c then skipWs rest else c :: rest

/-- Value of one hexadecimal digit. -/
def parseHexDigit (c : Char) : Option Nat :=
  if '0' ≤ c ∧ c ≤ '9' then some (c.toNat - '0'.toNat)
  else if 'a' ≤ c ∧ c ≤ 'f' then some (c.toNat - 'a'.toNat + 10)
  else if 'A' ≤ c ∧ c ≤ 'F' then some (c.toNat - 'A'.toNat + 10)
  else none

/-- The single-character JSON string escapes. -/
def unescapeChar (e : Char) : Option Char :=
  if e = 'n' then some '\n' else if e = 't' then some '\t'
  else if e = 'r' then some '\r' else if e = 'b' then some '\x08'
  else if e = 'f' then some '\x0c' else if e = '"' then some '"'
  else if e = '\\' then some '\\' else if e = '/' then some '/'
  else none

/-- Body of a JSON string literal after the opening quote: the decoded
characters and the remaining input after the closing quote.  Unescaped
control characters and invalid escapes are rejected, as in `JSON.parse`. -/
def parseStringBody : List Char → Option (List Char × List Char)
  | [] => none
  | c :: rest =>
    if c = '"' then some ([], rest)
    else if c = '\\' then
      match rest with
      | [] => none
      | e :: rest2 =>
        if e = 'u' then
          match rest2 with
          | a :: b :: c2 :: d :: rest3 =>
            match parseHexDigit a, parseHexDigit b, parseHexDigit c2, parseHexDigit d with
            | some ha, some hb, some hc, some hd =>
              (parseStringBody rest3).map
                (fun p => (Char.ofNat (((ha * 16 + hb) * 16 + hc) * 16 + hd) :: p.1, p.2))
            | _, _, _, _ => none
          | _ => none
        else
          match unescapeChar e with
          | some u => (parseStringBody rest2).map (fun p => (u :: p.1, p.2))
          | none => none
    else if c.toNat < 32 then none
    else (parseStringBody rest).map (fun p => (c :: p.1, p.2))

/-- Longest leading run of decimal digits. -/
def takeDigits : List Char → List Char × List Char
  | [] => ([], [])
  | c :: rest =>
    if c.isDigit then
      let p := takeDigits rest
      (c :: p.1, p.2)
    else ([], c :: rest)

/-- At least one leading decimal digit. -/
def digits1 (s : List Char) : Option (List Char × List Char) :=
  match takeDigits s with
  | ([], _) => none
  | (ds, rest) => some (ds, rest)

/-- The integer part of a JSON number: `0`, or a nonzero digit followed by
digits. -/
def parseIntPart : List Char → Option (List Char × List Char)
  | [] => none
  | c :: rest =>
    if c = '0' then some (['0'], rest)
    else if c.isDigit then
      let p := takeDigits rest
      some (c :: p.1, p.2)
    else none

/-- Optional fraction part `.digits`; consumes nothing when absent. -/
def parseFracOpt : List Char → List Char × List Char
  | [] => ([], [])
  | c :: rest =>
    if c = '.' then
      match digits1 rest with
      | some (ds, r) => ('.' :: ds, r)
      | none => ([], c :: rest)
    else ([], c :: rest)

/-- The tail of an exponent part, after the `e`/`E` marker `c`. -/
def parseExpTail (c : Char) : List Char → List Char × List Char
  | [] => ([], [c])
  | s :: rest2 =>
    if s = '+' ∨ s = '-' then
      match digits1 rest2 with
      | some (ds, r) => (c :: s :: ds, r)
      | none => ([], c :: s :: rest2)
    else
      match digits1 (s :: rest2) with
      | some (ds, r) => (c :: ds, r)
      | none => ([], c :: s :: rest2)

/-- Optional exponent part `(e|E)(+|-)?digits`; consumes nothing when
absent. -/
def parseExpOpt : List Char → List Char × List Char
  | [] => ([], [])
  | c :: rest =>
    if c = 'e' ∨ c = 'E' then parseExpTail c rest
    else ([], c :: rest)

/-- A JSON number token after the optional minus sign. -/
def parseNumTail (s : List Char) : Option (List Char × List Char) :=
  match parseIntPart s with
  | some (ip, r1) =>
    let f := parseFracOpt r1
    let e := parseExpOpt f.2
    some (ip ++ f.1 ++ e.1, e.2)
  | none => none

/-- A JSON number token (with optional minus sign). -/
def parseNumber : List Char → Option (List Char × List Char)
  | [] => none
  | c :: rest =>
    if c = '-' then (parseNumTail rest).map (fun p => ('-' :: p.1, p.2))
    else parseNumTail (c :: rest)

mutual

/-- Recursive-descent JSON value parser with structural fuel;
mirrors `JSON.parse` (object duplicate keys: last value wins, first
position kept, via `setKey`). -/
def parseValue : Nat → List Char → Option (Json × List Char)
  | 0, _ => none
  | fuel + 1, s =>
    match skipWs s with
    | [] => none
    | c :: rest =>
      if c = 'n' then
        match rest with
        | 'u' :: 'l' :: 'l' :: r => some (.null, r)
        | _ => none
      else if c = 't' then
        match rest with
        | 'r' :: 'u' :: 'e' :: r => some (.bool true, r)
        | _ => none
      else if c = 'f' then
        match rest with
        | 'a' :: 'l' :: 's' :: 'e' :: r => some (.bool false, r)
        | _ => none
      else if c = '"' then
        (parseStringBody rest).map (fun p => (Json.str (String.mk p.1), p.2))
      else if c = '[' then
        match skipWs rest with
        | [] => none
        | d :: r =>
          if d = ']' then some (.arr [], r)
          else
            match parseValue fuel (d :: r) with
            | some (v, r') => parseArrRest fuel [v] r'
            | none => none
      else if c = '\x7b' then
        match skipWs rest with
        | [] => none
        | d :: r =>
          if d = '\x7d' then some (.obj [], r)
          else
            match parseMember fuel (d :: r) with
            | some (kv, r') => parseObjRest fuel (setKey [] kv.1 kv.2) r'
            | none => none
      else (parseNumber (c :: rest)).map (fun p => (Json.num (String.mk p.1), p.2))

/-- After one or more array elements: a comma and another element, or the
closing bracket. -/
def parseArrRest : Nat → List Json → List Char → Option (Json × List Char)
  | 0, _, _ => none
  | fuel + 1, acc, s =>
    match skipWs s with
    | [] => none
    | c :: rest =>
      if c = ',' then
        match parseValue fuel rest with
        | some (v, r') => parseArrRest fuel (acc ++ [v]) r'
        | none => none
      else if c = ']' then some (.arr acc, rest)
      else none

/-- One `"key": value` object member. -/
def parseMember : Nat → List Char → Option ((String × Json) × List Char)
  | 0, _ => none
  | fuel + 1, s =>
    match skipWs s with
    | [] => none
    | c :: rest =>
      if c = '"' then
        match parseStringBody rest with
        | some (kcs, r1) =>
          match skipWs r1 with
          | [] => none
          | d :: r2 =>
            if d = ':' then
              match parseValue fuel r2 with
              | some (v, r3) => some ((String.mk kcs, v), r3)
              | none => none
            else none
        | none => none
      else none

/-- After one or more object members: a comma and another member, or the
closing brace. -/
def parseObjRest : Nat → List (String × Json) → List Char → Option (Json × List Char)
  | 0, _, _ => none
  | fuel + 1, acc, s =>
    match skipWs s with
    | [] => none
    | c :: rest =>
      if c = ',' then
        match parseMember fuel rest with
        | some (kv, r') => parseObjRest fuel (setKey acc kv.1 kv.2) r'
        | none => none
      else if c = '\x7d' then some (.obj acc, rest)
      else none

end

/-- `JSON.parse` on a character list: a single value with only whitespace
around it, or failure.  The fuel `2 * length + 2` exceeds the nesting any
input of this length can produce. -/
def tryParseJsonL (s : List Char) : Option Json :=
  match parseValue (2 * s.length + 2) s with
  | some (v, rest) => if skipWs rest = [] then some v else none
  | none => none

/-- `tryParseJson` of the source: `JSON.parse` returning `undefined`
instead of throwing. -/
def tryParseJson (s : String) : Option Json := tryParseJsonL s.toList

/-- `Object.entries` on a value produced by `JSON.parse`: fields of an
object, indexed elements of an array, indexed one-character strings of a
string, nothing for primitives. -/
def jsonEntries : Json → List (String × Json)
  | .obj fs => fs
  | .arr xs => xs.enum.map (fun p => (toString p.1, p.2))
  | .str s => s.toList.enum.map (fun p => (toString p.1, Json.str (String.mk [p.2])))
  | _ => []

example : tryParseJson "\x7b\"a\":\"A\"\x7d" = some (.obj [("a", .str "A")]) := by rfl
example : tryParseJson "This is not JSON" = none := by rfl
example : tryParseJson " [1, 2] " = some (.arr [.num "1", .num "2"]) := by rfl
example : tryParseJson "\x7b\"a\":\x7b\"b\":null\x7d\x7d"
    = some (.obj [("a", .obj [("b", .null)])]) := by rfl
example : tryParseJson "\x7b\"a\":1,\"a\":2\x7d" = some (.obj [("a", .num "2")]) := by rfl
example : tryParseJson "[1," = none := by rfl
example : tryParseJson "\"a\\nb\"" = some (.str "a\nb") := by rfl

/-! ### Batch orchestration (`translateMessages`, legacy and core) -/

/-- The slicing loop `for (i = 0; i < entries.length; i += batchSize)`:
contiguous batches `entries.slice(i, i + batchSize)`.  Structural fuel;
one entry is consumed per step whenever the batch size is positive. -/
def batchesF : Nat → Nat → List α → List (List α)
  | 0, _, _ => []
  | _, _, [] => []
  | fuel + 1, B, a :: l => (a :: l).take B :: batchesF fuel B ((a :: l).drop B)

/-- The batches of an entry list for a given batch size. -/
def batches (B : Nat) (l : List α) : List (List α) := batchesF l.length B l

/-- Observable state of one `translateMessages` run: the accumulated
result record, the `processed` counter, the sequence of
`onProgress(current, total)` calls, and the number of model invocations. -/
structure OrchState (ρ : Type) where
  acc : ρ
  processed : Nat
  progress : List (Nat × Nat)
  invocations : Nat

/-- One loop iteration: invoke the model on the batch (the response is
indexed by the invocation counter), reconcile into the accumulator, add
the batch length to `processed`, and report `(processed, total)`. -/
def stepBatch (reconcile : List (String × String) → σ → ρ → ρ)
    (responses : Nat → σ) (total : Nat)
    (st : OrchState ρ) (batch : List (String × String)) : OrchState ρ :=
  ⟨reconcile batch (responses st.invocations) st.acc,
   st.processed + batch.length,
   st.progress ++ [(st.processed + batch.length, total)],
   st.invocations + 1⟩

/-- The batching loop shared by the translator implementations. -/
def runBatched (reconcile : List (String × String) → σ → ρ → ρ)
    (responses : Nat → σ) (B : Nat) (init : ρ)
    (messages : List (String × String)) : OrchState ρ :=
  (batches B messages).foldl (stepBatch reconcile responses messages.length)
    ⟨init, 0, [], 0⟩

/-- Batch entries as stored by the fallback: original values as JSON
strings. -/
def stringifyEntries (l : List (String × String)) : List (String × Json) :=
  l.map (fun kv => (kv.1, Json.str kv.2))

/-- Per-batch reconciliation of the legacy `translateMessages`: extract
the greedy brace span, `JSON.parse` it and merge its `Object.entries`
into the record; on no span or a parse failure copy the batch's original
entries instead. -/
def reconcileBatchLegacy (batch : List (String × String)) (response : String)
    (acc : List (String × Json)) : List (String × Json) :=
  match regexSpan '\x7b' '\x7d' response.toList with
  | some span =>
    match tryParseJsonL span with
    | some j => (jsonEntries j).foldl (fun r kv => setKey r kv.1 kv.2) acc
    | none => batch.foldl (fun r kv => setKey r kv.1 (Json.str kv.2)) acc
  | none => batch.foldl (fun r kv => setKey r kv.1 (Json.str kv.2)) acc

/-- The legacy `translateMessages` (batch size 10), with the model's text
response for each invocation given by `responses`. -/
def translateMessagesLegacy (messages : List (String × String))
    (responses : Nat → String) : OrchState (List (String × Json)) :=
  runBatched reconcileBatchLegacy responses 10 [] messages

/-- Per-batch reconciliation of the core `translateMessages` (structured
output): when `result.output` is present merge its entries, otherwise the
batch contributes nothing. -/
def reconcileBatchCore (_batch : List (String × String))
    (output : Option (List (String × String)))
    (acc : List (String × String)) : List (String × String) :=
  match output with
  | some entries => entries.foldl (fun r kv => setKey r kv.1 kv.2) acc
  | none => acc

/-- The core `translateMessages` (batch size 100, structured output). -/
def translateMessagesCore (messages : List (String × String))
    (responses : Nat → Option (List (String × String))) :
    OrchState (List (String × String)) :=
  runBatched reconcileBatchCore responses 100 [] messages

/-! ### Partition and invocation-count lemmas -/

theorem batchesF_nil (B fuel : Nat) : batchesF fuel B ([] : List α) = [] := by
  cases fuel <;> rfl

theorem batchesF_flatten (B : Nat) (hB : 0 < B) :
    ∀ fuel (l : List α), l.length ≤ fuel → (batchesF fuel B l).flatten = l := by
  intro fuel
  induction fuel with
  | zero =>
    intro l h
    have : l = [] := List.length_eq_zero.mp (by omega)
    simp [this, batchesF_nil]
  | succ n ih =>
    intro l h
    cases l with
    | nil => simp [batchesF_nil]
    | cons a t =>
      have h' : t.length + 1 ≤ n + 1 := by simpa using h
      simp only [batchesF, List.flatten_cons]
      rw [ih ((a :: t).drop B)
        (by simp only [List.length_drop, List.length_cons]; omega)]
      exact List.take_append_drop B (a :: t)

theorem batchesF_length_eq (B : Nat) (hB : 0 < B) :
    ∀ fuel (l : List α), l.length ≤ fuel →
    (batchesF fuel B l).length = (l.length + B - 1) / B := by
  intro fuel
  induction fuel with
  | zero =>
    intro l h
    have : l = [] := List.length_eq_zero.mp (by omega)
    subst this
    simp [batchesF_nil, Nat.div_eq_of_lt (show B - 1 < B by omega)]
  | succ n ih =>
    intro l h
    cases l with
    | nil => simp [batchesF_nil, Nat.div_eq_of_lt (show B - 1 < B by omega)]
    | cons a t =>
      have h' : t.length + 1 ≤ n + 1 := by simpa using h
      simp only [batchesF, List.length_cons]
      rw [ih ((a :: t).drop B)
        (by simp only [List.length_drop, List.length_cons]; omega)]
      simp only [List.length_drop, List.length_cons]
      have e2 : t.length + 1 + B - 1 = t.length + B := by omega
      rw [e2, Nat.add_div_right _ hB]
      by_cases hle : t.length + 1 ≤ B
      · have e1 : t.length + 1 - B = 0 := by omega
        rw [e1]
        have e3 : 0 + B - 1 = B - 1 := by omega
        rw [e3, Nat.div_eq_of_lt (show B - 1 < B by omega),
          Nat.div_eq_of_lt (show t.length < B by omega)]
      · have e1 : t.length + 1 - B + B - 1 = t.length - B + B := by omega
        rw [e1, Nat.add_div_right _ hB]
        have e5 : t.length = t.length - B + B := by omega
        conv_rhs => rw [e5, Nat.add_div_right _ hB]

theorem batchesF_mem (B : Nat) (hB : 0 < B) :
    ∀ fuel (l : List α), ∀ b ∈ batchesF fuel B l, b.length ≤ B ∧ b ≠ [] := by
  intro fuel
  induction fuel with
  | zero => intro l b hb; simp [batchesF] at hb
  | succ n ih =>
    intro l b hb
    cases l with
    | nil => simp [batchesF_nil] at hb
    | cons a t =>
      simp only [batchesF, List.mem_cons] at hb
      rcases hb with hb | hb
      · subst hb
        constructor
        · simp [List.length_take]
        · obtain ⟨m, hm⟩ : ∃ m, B = m + 1 := ⟨B - 1, by omega⟩
          subst hm
          simp [List.take_succ_cons]
      · exact ih _ b hb

theorem batchesF_getD (B : Nat) (hB : 0 < B) :
    ∀ fuel (l : List α), l.length ≤ fuel →
    ∀ i, i + 1 < (batchesF fuel B l).length → ((batchesF fuel B l).getD i []).length = B := by
  intro fuel
  induction fuel with
  | zero =>
    intro l h i hi
    have : l = [] := List.length_eq_zero.mp (by omega)
    subst this
    simp [batchesF_nil] at hi
  | succ n ih =>
    intro l h i hi
    cases l with
    | nil => simp [batchesF_nil] at hi
    | cons a t =>
      simp only [batchesF] at hi ⊢
      cases i with
      | zero =>
        simp only [List.getD_cons_zero]
        simp only [List.length_cons] at hi
        have hne : batchesF n B ((a :: t).drop B) ≠ [] := by
          intro hcon
          rw [hcon] at hi
          simp at hi
        have hdrop : (a :: t).drop B ≠ [] := by
          intro hcon
          rw [hcon, batchesF_nil] at hne
          exact hne rfl
        have hlen : B < (a :: t).length := by
          by_contra hcon
          exact hdrop (List.drop_eq_nil_of_le (by omega))
        simp only [List.length_cons] at hlen
        simp [List.length_take]
        omega
      | succ j =>
        have h' : t.length + 1 ≤ n + 1 := by simpa using h
        simp only [List.getD_cons_succ]
        exact ih _ (by simp only [List.length_drop, List.length_cons]; omega) j
          (by simp only [List.length_cons] at hi; omega)

theorem foldl_stepBatch_invocations (reconcile : List (String × String) → σ → ρ → ρ)
    (responses : Nat → σ) (total : Nat) :
    ∀ (bs : List (List (String × String))) (st : OrchState ρ),
    (bs.foldl (stepBatch reconcile responses total) st).invocations
      = st.invocations + bs.length := by
  intro bs
  induction bs with
  | nil => intro st; simp
  | cons b t ih =>
    intro st
    simp only [List.foldl_cons, ih, stepBatch, List.length_cons]
    omega

theorem batches_flatten (B : Nat) (hB : 0 < B) (l : List α) :
    (batches B l).flatten = l :=
  batchesF_flatten B hB l.length l le_rfl

theorem batches_mem (B : Nat) (hB : 0 < B) (l : List α) :
    ∀ b ∈ batches B l, b.length ≤ B ∧ b ≠ [] :=
  fun b hb => batchesF_mem B hB l.length l b hb

theorem batches_length_eq (B : Nat) (hB : 0 < B) (l : List α) :
    (batches B l).length = (l.length + B - 1) / B :=
  batchesF_length_eq B hB l.length l le_rfl

theorem batches_getD (B : Nat) (hB : 0 < B) (l : List α) :
    ∀ i, i + 1 < (batches B l).length → ((batches B l).getD i []).length = B :=
  batchesF_getD B hB l.length l le_rfl

/-- C6: the batches are contiguous slices of the entries in original
order with no overlap and no gaps (their concatenation is the input),
every batch has at most B entries, every non-final batch has exactly B,
and the number of model invocations is `ceil(N / B)` — `(N + B - 1) / B` —
with batch size 10 in the legacy path and 100 in the core path; N = 0
yields zero invocations since `(0 + B - 1) / B = 0`. -/
theorem translate_batch_partition (B : Nat) (hB : 0 < B)
    (messages : List (String × String)) :
    (batches B messages).flatten = messages
    ∧ (∀ b ∈ batches B messages, b.length ≤ B ∧ b ≠ [])
    ∧ (∀ i, i + 1 < (batches B messages).length →
        ((batches B messages).getD i []).length = B)
    ∧ (batches B messages).length = (messages.length + B - 1) / B
    ∧ (∀ responses, (translateMessagesLegacy messages responses).invocations
        = (messages.length + 10 - 1) / 10)
    ∧ (∀ responses, (translateMessagesCore messages responses).invocations
        = (messages.length + 100 - 1) / 100) := by
  refine ⟨batches_flatten B hB messages, batches_mem B hB messages,
    batches_getD B hB messages, batches_length_eq B hB messages,
    fun responses => ?_, fun responses => ?_⟩
  · unfold translateMessagesLegacy runBatched
    rw [foldl_stepBatch_invocations]
    simpa using batches_length_eq 10 (by omega) messages
  · unfold translateMessagesCore runBatched
    rw [foldl_stepBatch_invocations]
    simpa using batches_length_eq 100 (by omega) messages

/-- A list of n distinct test entries. -/
def msgsN (n : Nat) : List (String × String) :=
  (List.range n).map (fun i => (toString i, toString i))

/-- Witness for C6: 25 entries at batch size 10 give 3 invocations,
225 entries at batch size 100 give 3, zero entries give zero. -/
theorem translate_batch_partition_witness :
    (translateMessagesLegacy (msgsN 25) (fun _ => "")).invocations = 3
    ∧ (translateMessagesCore (msgsN 225) (fun _ => none)).invocations = 3
    ∧ (translateMessagesLegacy [] (fun _ => "")).invocations = 0 := by
  refine ⟨?_, ?_, ?_⟩
  · rw [(translate_batch_partition 10 (by omega) (msgsN 25)).2.2.2.2.1 (fun _ => "")]
    rfl
  · rw [(translate_batch_partition 100 (by omega) (msgsN 225)).2.2.2.2.2 (fun _ => none)]
    rfl
  · rw [(translate_batch_partition 10 (by omega) []).2.2.2.2.1 (fun _ => "")]
    rfl

/-! ### Progress reporting -/

/-- The progress entries emitted from a given starting count: cumulative
processed counts paired with the fixed total. -/
def progList (total : Nat) : Nat → List (List (String × String)) → List (Nat × Nat)
  | _, [] => []
  | start, b :: bs => (start + b.length, total) :: progList total (start + b.length) bs

theorem foldl_stepBatch_progress (reconcile : List (String × String) → σ → ρ → ρ)
    (responses : Nat → σ) (total : Nat) :
    ∀ (bs : List (List (String × String))) (st : OrchState ρ),
    (bs.foldl (stepBatch reconcile responses total) st).progress
      = st.progress ++ progList total st.processed bs := by
  intro bs
  induction bs with
  | nil => intro st; simp [progList]
  | cons b t ih =>
    intro st
    simp only [List.foldl_cons, ih, stepBatch, progList]
    simp [List.append_assoc]

theorem progList_total (total : Nat) :
    ∀ bs start, ∀ p ∈ progList total start bs, p.2 = total := by
  intro bs
  induction bs with
  | nil => intro start p hp; simp [progList] at hp
  | cons b t ih =>
    intro start p hp
    simp only [progList, List.mem_cons] at hp
    rcases hp with hp | hp
    · rw [hp]
    · exact ih _ p hp

theorem progList_gt (total : Nat) :
    ∀ bs start, (∀ b ∈ bs, b ≠ ([] : List (String × String))) →
    ∀ p ∈ progList total start bs, start < p.1 := by
  intro bs
  induction bs with
  | nil => intro start _ p hp; simp [progList] at hp
  | cons b t ih =>
    intro start hne p hp
    have hb : b ≠ [] := hne b (by simp)
    have hlen : 0 < b.length := List.length_pos.mpr hb
    simp only [progList, List.mem_cons] at hp
    rcases hp with hp | hp
    · rw [hp]; simp; omega
    · have := ih (start + b.length) (fun x hx => hne x (by simp [hx])) p hp
      omega

theorem progList_pairwise (total : Nat) :
    ∀ bs start, (∀ b ∈ bs, b ≠ ([] : List (String × String))) →
    List.Pairwise (fun p q => p.1 < q.1) (progList total start bs) := by
  intro bs
  induction bs with
  | nil => intro start _; simp [progList]
  | cons b t ih =>
    intro start hne
    simp only [progList]
    constructor
    · intro q hq
      have := progList_gt total t (start + b.length)
        (fun x hx => hne x (by simp [hx])) q hq
      omega
    · exact ih _ (fun x hx => hne x (by simp [hx]))

theorem progList_getLast (total : Nat) :
    ∀ bs start, bs ≠ [] →
    (progList total start bs).getLast?
      = some (start + (bs.map List.length).sum, total) := by
  intro bs
  induction bs with
  | nil => intro start h; exact absurd rfl h
  | cons b t ih =>
    intro start _
    cases t with
    | nil => simp [progList]
    | cons b2 t2 =>
      simp only [progList]
      rw [List.getLast?_cons_cons]
      have := ih (start + b.length) (by simp)
      simp only [progList] at this
      rw [this]
      simp only [List.map_cons, List.sum_cons, Option.some.injEq, Prod.mk.injEq]
      refine ⟨by omega, ?_⟩
      try rfl
      try trivial

/-- C7: within one legacy `translateMessages` run, every reported total
equals N, the reported currents are strictly increasing, the final report
is (N, N) for non-empty input, and no report happens for N = 0. -/
theorem translate_progress_spec (messages : List (String × String))
    (responses : Nat → String) :
    (∀ p ∈ (translateMessagesLegacy messages responses).progress,
      p.2 = messages.length)
    ∧ List.Pairwise (fun p q => p.1 < q.1)
        (translateMessagesLegacy messages responses).progress
    ∧ (messages ≠ [] →
        (translateMessagesLegacy messages responses).progress.getLast?
          = some (messages.length, messages.length))
    ∧ (messages = [] →
        (translateMessagesLegacy messages responses).progress = []) := by
  have hprog : (translateMessagesLegacy messages responses).progress
      = progList messages.length 0 (batches 10 messages) := by
    unfold translateMessagesLegacy runBatched
    rw [foldl_stepBatch_progress]
    simp
  refine ⟨?_, ?_, ?_, ?_⟩
  · intro p hp
    rw [hprog] at hp
    exact progList_total _ _ _ p hp
  · rw [hprog]
    exact progList_pairwise _ _ _ (fun b hb => (batches_mem 10 (by omega) messages b hb).2)
  · intro hne
    rw [hprog]
    have hbne : batches 10 messages ≠ [] := by
      intro hcon
      apply hne
      have hfl := batches_flatten 10 (by omega) messages
      rw [hcon] at hfl
      simpa using hfl.symm
    rw [progList_getLast _ _ _ hbne]
    have hsum : ((batches 10 messages).map List.length).sum = messages.length := by
      rw [← List.length_flatten, batches_flatten 10 (by omega) messages]
    rw [hsum]
    simp
  · intro h
    subst h
    rw [hprog]
    rfl

/-- Witness for C7: for 15 entries at batch size 10 the progress calls
are exactly (10, 15) then (15, 15); the final call is (N, N). -/
theorem translate_progress_spec_witness :
    (translateMessagesLegacy (msgsN 15) (fun _ => "")).progress
      = [(10, 15), (15, 15)]
    ∧ (translateMessagesLegacy (msgsN 15) (fun _ => "")).progress.getLast?
      = some (15, 15)
    ∧ (translateMessagesLegacy [] (fun _ => "")).progress = [] := by
  refine ⟨by decide, ?_, (translate_progress_spec [] (fun _ => "")).2.2.2 rfl⟩
  have h := (translate_progress_spec (msgsN 15) (fun _ => "")).2.2.1 (by decide)
  simpa using h

/-- Witness for C9 (amended): with language "fr", a non-empty context
yields the marker and the context text; the empty context yields no
marker. -/
theorem buildSystemPrompt_context_witness :
    containsSub (buildSystemPrompt "fr" "a friendly food app") "Product context" = true
    ∧ containsSub (buildSystemPrompt "fr" "a friendly food app") "a friendly food app" = true
    ∧ containsSub (buildSystemPrompt "fr" "") "Product context" = false := by
  refine ⟨((buildSystemPrompt_context "fr" "a friendly food app").1 (by decide)).1,
    ((buildSystemPrompt_context "fr" "a friendly food app").1 (by decide)).2,
    (buildSystemPrompt_context "fr" "").2 rfl (by decide)⟩

/-! ### Record-merge lemmas for the reconciler -/

/-- Keys of a record, in order. -/
def keys (r : List (String × α)) : List String := r.map Prod.fst

theorem setKey_fresh (r : List (String × α)) (k : String) (v : α)
    (h : ∀ p ∈ r, p.1 ≠ k) : setKey r k v = r ++ [(k, v)] := by
  unfold setKey
  have hany : r.any (fun p => p.1 == k) = false := by
    rw [List.any_eq_false]
    intro p hp
    simp only [beq_iff_eq]
    exact h p hp
  rw [hany]
  simp

theorem foldl_setKey_append (pairs : List (String × α)) :
    ∀ acc : List (String × α),
    (keys pairs).Nodup →
    (∀ k ∈ keys pairs, ∀ p ∈ acc, p.1 ≠ k) →
    pairs.foldl (fun r kv => setKey r kv.1 kv.2) acc = acc ++ pairs := by
  induction pairs with
  | nil => intro acc _ _; simp
  | cons kv ps ih =>
    intro acc hnd hfresh
    have hnd' : kv.1 ∉ keys ps ∧ (keys ps).Nodup := by
      have h0 := hnd
      simp only [keys, List.map_cons, List.nodup_cons] at h0
      exact ⟨h0.1, h0.2⟩
    simp only [List.foldl_cons]
    rw [setKey_fresh acc kv.1 kv.2 (fun p hp => hfresh kv.1 (by simp [keys]) p hp)]
    rw [ih (acc ++ [(kv.1, kv.2)]) hnd'.2 ?_]
    · simp
    · intro k hk p hp
      rcases List.mem_append.mp hp with hp | hp
      · exact hfresh k (by simp only [keys, List.map_cons, List.mem_cons]; right; exact hk) p hp
      · simp only [List.mem_singleton] at hp
        subst hp
        intro hcon
        exact hnd'.1 (by simpa using hcon ▸ hk)

theorem lookupKey_of_mem_nodup (l : List (String × α)) :
    (keys l).Nodup → ∀ kv ∈ l, lookupKey l kv.1 = some kv.2 := by
  induction l with
  | nil => intro _ kv hkv; simp at hkv
  | cons p t ih =>
    intro hnd kv hkv
    have hnd' : p.1 ∉ keys t ∧ (keys t).Nodup := by
      have h0 := hnd
      simp only [keys, List.map_cons, List.nodup_cons] at h0
      exact ⟨h0.1, h0.2⟩
    rcases List.mem_cons.mp hkv with hkv | hkv
    · subst hkv
      simp [lookupKey]
    · have hne : p.1 ≠ kv.1 := by
        intro hcon
        exact hnd'.1 (by rw [hcon]; exact List.mem_map_of_mem Prod.fst hkv)
      simp only [lookupKey, beq_iff_eq]
      rw [if_neg (by simpa using hne)]
      exact ih hnd'.2 kv hkv

/-- The value `JSON.parse` produces from the extracted greedy brace span
of a response, when both extraction and parsing succeed. -/
def parsedSpan (response : String) : Option Json :=
  match regexSpan '\x7b' '\x7d' response.toList with
  | some span => tryParseJsonL span
  | none => none

/-- Whether the legacy reconciler falls back to the original values for a
response (no brace span, or the span does not parse). -/
def legacyFallsBack (response : String) : Bool :=
  (parsedSpan response).isNone

/-- What one batch contributes to the record: the parsed response's
entries when the greedy span parses, otherwise the batch's own entries
with their original values. -/
def batchContribution (batch : List (String × String)) (response : String) :
    List (String × Json) :=
  match parsedSpan response with
  | some j => jsonEntries j
  | none => stringifyEntries batch

theorem reconcileBatchLegacy_eq (batch : List (String × String)) (response : String)
    (acc : List (String × Json)) :
    reconcileBatchLegacy batch response acc
      = (batchContribution batch response).foldl (fun r kv => setKey r kv.1 kv.2) acc := by
  unfold reconcileBatchLegacy batchContribution parsedSpan
  cases hr : regexSpan '\x7b' '\x7d' response.toList with
  | none => simp [stringifyEntries, List.foldl_map]
  | some span =>
    cases hp : tryParseJsonL span with
    | none => simp [hp, stringifyEntries, List.foldl_map]
    | some j => simp [hp]

/-- The contributions of successive batches, with responses indexed from
a given invocation counter. -/
def contribsFrom (responses : Nat → String) :
    Nat → List (List (String × String)) → List (List (String × Json))
  | _, [] => []
  | i, b :: bs => batchContribution b (responses i) :: contribsFrom responses (i + 1) bs

theorem keys_append (a b : List (String × α)) : keys (a ++ b) = keys a ++ keys b := by
  simp [keys]

/-- Running the legacy loop appends the batches' contributions in order,
whenever the contributed keys are globally distinct and fresh for the
initial accumulator. -/
theorem foldl_legacy_contribs (responses : Nat → String) (total : Nat) :
    ∀ (bs : List (List (String × String))) (st : OrchState (List (String × Json))),
    (keys ((contribsFrom responses st.invocations bs).flatten)).Nodup →
    (∀ k ∈ keys ((contribsFrom responses st.invocations bs).flatten),
      ∀ p ∈ st.acc, p.1 ≠ k) →
    (bs.foldl (stepBatch reconcileBatchLegacy responses total) st).acc
      = st.acc ++ (contribsFrom responses st.invocations bs).flatten := by
  intro bs
  induction bs with
  | nil => intro st _ _; simp [contribsFrom]
  | cons b t ih =>
    intro st hnd hfresh
    simp only [contribsFrom, List.flatten_cons, keys_append] at hnd hfresh
    have hsplit := List.nodup_append.mp hnd
    simp only [List.foldl_cons]
    have hstep : (stepBatch reconcileBatchLegacy responses total st b).acc
        = st.acc ++ batchContribution b (responses st.invocations) := by
      show reconcileBatchLegacy b (responses st.invocations) st.acc = _
      rw [reconcileBatchLegacy_eq]
      exact foldl_setKey_append _ st.acc hsplit.1
        (fun k hk p hp => hfresh k (List.mem_append.mpr (Or.inl hk)) p hp)
    have hinv : (stepBatch reconcileBatchLegacy responses total st b).invocations
        = st.invocations + 1 := rfl
    rw [ih (stepBatch reconcileBatchLegacy responses total st b) ?_ ?_]
    · rw [hstep, hinv]
      simp only [contribsFrom, List.flatten_cons, List.append_assoc]
    · rw [hinv]
      exact hsplit.2.1
    · rw [hinv, hstep]
      intro k hk p hp
      rcases List.mem_append.mp hp with hp | hp
      · exact hfresh k (List.mem_append.mpr (Or.inr hk)) p hp
      · intro hcon
        have hpk : p.1 ∈ keys (batchContribution b (responses st.invocations)) :=
          List.mem_map_of_mem Prod.fst hp
        exact hsplit.2.2 (hcon ▸ hpk) hk

/-! ### C5: fallback on unparseable responses -/

theorem contribsFrom_fallback (responses : Nat → String)
    (hfb : ∀ i, legacyFallsBack (responses i) = true) :
    ∀ (bs : List (List (String × String))) i,
    contribsFrom responses i bs = bs.map stringifyEntries := by
  intro bs
  induction bs with
  | nil => intro i; rfl
  | cons b t ih =>
    intro i
    simp only [contribsFrom, List.map_cons, ih]
    congr 1
    unfold batchContribution
    have hf := hfb i
    unfold legacyFallsBack at hf
    cases hp : parsedSpan (responses i) with
    | none => rfl
    | some j => rw [hp] at hf; simp at hf

theorem keys_stringify (l : List (String × String)) :
    keys (stringifyEntries l) = keys l := by
  unfold keys stringifyEntries
  rw [List.map_map]
  rfl

theorem stringify_flatten (bs : List (List (String × String))) :
    (bs.map stringifyEntries).flatten = stringifyEntries bs.flatten := by
  unfold stringifyEntries
  rw [List.map_flatten]

/-- C5: for every input whose keys are distinct, when every model
response contains no parseable JSON region (such as "This is not JSON"),
`translateMessages` — a total function here, so in particular it cannot
raise — returns exactly the input entries with every value unchanged;
every key of every batch maps to its original input value. -/
theorem translate_fallback_spec (messages : List (String × String))
    (responses : Nat → String)
    (hnd : (keys messages).Nodup)
    (hfb : ∀ i, legacyFallsBack (responses i) = true) :
    (translateMessagesLegacy messages responses).acc = stringifyEntries messages
    ∧ ∀ kv ∈ messages,
        lookupKey (translateMessagesLegacy messages responses).acc kv.1
          = some (Json.str kv.2) := by
  have hflat : (contribsFrom responses 0 (batches 10 messages)).flatten
      = stringifyEntries messages := by
    rw [contribsFrom_fallback responses hfb, stringify_flatten,
      batches_flatten 10 (by omega)]
  have hacc : (translateMessagesLegacy messages responses).acc
      = stringifyEntries messages := by
    unfold translateMessagesLegacy runBatched
    rw [foldl_legacy_contribs responses messages.length (batches 10 messages)
      ⟨[], 0, [], 0⟩ ?_ ?_]
    · rw [hflat]
      rfl
    · rw [hflat, keys_stringify]
      exact hnd
    · intro k _ p hp
      simp at hp
  refine ⟨hacc, ?_⟩
  intro kv hkv
  rw [hacc]
  have hmem : (kv.1, Json.str kv.2) ∈ stringifyEntries messages :=
    List.mem_map_of_mem _ hkv
  have hnd2 : (keys (stringifyEntries messages)).Nodup := by
    rw [keys_stringify]; exact hnd
  simpa using lookupKey_of_mem_nodup _ hnd2 (kv.1, Json.str kv.2) hmem

/-- Witness for C5: the repository's own test scenario — one message,
response "This is not JSON" — yields the original entry unchanged. -/
theorem translate_fallback_spec_witness :
    (translateMessagesLegacy [("hello", "Hello")] (fun _ => "This is not JSON")).acc
      = [("hello", Json.str "Hello")]
    ∧ lookupKey (translateMessagesLegacy [("hello", "Hello")]
        (fun _ => "This is not JSON")).acc "hello" = some (Json.str "Hello") := by
  constructor
  · exact (translate_fallback_spec [("hello", "Hello")] (fun _ => "This is not JSON")
      (by decide) (fun i => rfl)).1
  · have h := (translate_fallback_spec [("hello", "Hello")] (fun _ => "This is not JSON")
      (by decide) (fun i => rfl)).2 ("hello", "Hello") (by simp)
    simpa using h

/-! ### C1: completeness of the result key space -/

/-- C1 counterexample: two input messages in one batch and a parseable
model response that contains only one of the keys — the result has one
entry where the input has two, so a key of the input is dropped (it is
mapped neither to a translation nor to its original value). -/
theorem translate_completeness_cex :
    (translateMessagesLegacy [("a", "x"), ("b", "y")]
        (fun _ => "\x7b\"a\":\"A\"\x7d")).acc.length = 1
    ∧ ([("a", "x"), ("b", "y")] : List (String × String)).length = 2
    ∧ lookupKey (translateMessagesLegacy [("a", "x"), ("b", "y")]
        (fun _ => "\x7b\"a\":\"A\"\x7d")).acc "b" = none := by
  exact ⟨rfl, rfl, rfl⟩

theorem contribsFrom_keys (responses : Nat → String) :
    ∀ (bs : List (List (String × String))) (i0 : Nat),
    (∀ n, n < bs.length →
      keys (batchContribution (bs.getD n []) (responses (i0 + n)))
        = keys (bs.getD n [])) →
    keys ((contribsFrom responses i0 bs).flatten) = keys bs.flatten := by
  intro bs
  induction bs with
  | nil => intro i0 _; rfl
  | cons b t ih =>
    intro i0 h
    simp only [contribsFrom, List.flatten_cons, keys_append]
    rw [ih (i0 + 1) ?_]
    · have h0 := h 0 (by simp)
      simp only [List.getD_cons_zero, Nat.add_zero] at h0
      rw [h0]
    · intro n hn
      have hh := h (n + 1) (by simpa using hn)
      have e : i0 + (n + 1) = i0 + 1 + n := by omega
      rw [e] at hh
      simpa using hh

theorem contribsFrom_mem (responses : Nat → String) :
    ∀ (bs : List (List (String × String))) (i0 : Nat) c,
    c ∈ contribsFrom responses i0 bs →
    ∃ n, n < bs.length ∧ c = batchContribution (bs.getD n []) (responses (i0 + n)) := by
  intro bs
  induction bs with
  | nil => intro i0 c hc; simp [contribsFrom] at hc
  | cons b t ih =>
    intro i0 c hc
    simp only [contribsFrom, List.mem_cons] at hc
    rcases hc with hc | hc
    · exact ⟨0, by simp, by simpa using hc⟩
    · obtain ⟨n, hn, hc⟩ := ih (i0 + 1) c hc
      refine ⟨n + 1, by simpa using hn, ?_⟩
      have e : i0 + (n + 1) = i0 + 1 + n := by omega
      rw [e]
      simpa using hc

theorem getD_mem_of_lt (l : List α) (d : α) :
    ∀ n, n < l.length → l.getD n d ∈ l := by
  induction l with
  | nil => intro n h; simp at h
  | cons a t ih =>
    intro n h
    cases n with
    | zero => simp
    | succ m =>
      simp only [List.getD_cons_succ]
      exact List.mem_cons.mpr (Or.inr (ih m (by simpa using h)))

/-- C1 (amended): provided every batch's contribution carries exactly the
batch's own keys (true when a parsed response maps exactly its batch's
keys; the fallback does so by construction), the result has exactly the
input's keys in order — so its size equals the input's — and every entry
of the result is either an entry of some parsed model response or an
original input entry with its value unchanged. -/
theorem translate_completeness_amended (messages : List (String × String))
    (responses : Nat → String)
    (hnd : (keys messages).Nodup)
    (hkeys : ∀ i, i < (batches 10 messages).length →
      keys (batchContribution ((batches 10 messages).getD i []) (responses i))
        = keys ((batches 10 messages).getD i [])) :
    keys (translateMessagesLegacy messages responses).acc = keys messages
    ∧ (translateMessagesLegacy messages responses).acc.length = messages.length
    ∧ (∀ kv ∈ (translateMessagesLegacy messages responses).acc,
        (∃ i j, parsedSpan (responses i) = some j ∧ kv ∈ jsonEntries j)
        ∨ kv ∈ stringifyEntries messages) := by
  have hkeys' : ∀ n, n < (batches 10 messages).length →
      keys (batchContribution ((batches 10 messages).getD n []) (responses (0 + n)))
        = keys ((batches 10 messages).getD n []) := by
    intro n hn
    rw [Nat.zero_add]
    exact hkeys n hn
  have hK : keys ((contribsFrom responses 0 (batches 10 messages)).flatten)
      = keys messages := by
    rw [contribsFrom_keys responses (batches 10 messages) 0 hkeys',
      batches_flatten 10 (by omega)]
  have hacc : (translateMessagesLegacy messages responses).acc
      = (contribsFrom responses 0 (batches 10 messages)).flatten := by
    unfold translateMessagesLegacy runBatched
    rw [foldl_legacy_contribs responses messages.length (batches 10 messages)
      ⟨[], 0, [], 0⟩ ?_ ?_]
    · rfl
    · rw [hK]; exact hnd
    · intro k _ p hp; simp at hp
  refine ⟨by rw [hacc, hK], ?_, ?_⟩
  · have h1 : (translateMessagesLegacy messages responses).acc.length
        = (keys (translateMessagesLegacy messages responses).acc).length := by
      unfold keys; rw [List.length_map]
    rw [h1, hacc, hK]
    unfold keys
    rw [List.length_map]
  · intro kv hkv
    rw [hacc] at hkv
    obtain ⟨c, hcmem, hkvc⟩ := List.mem_flatten.mp hkv
    obtain ⟨n, hn, hc⟩ := contribsFrom_mem responses (batches 10 messages) 0 c hcmem
    subst hc
    unfold batchContribution at hkvc
    cases hp : parsedSpan (responses (0 + n)) with
    | some j =>
      rw [hp] at hkvc
      exact Or.inl ⟨0 + n, j, hp, hkvc⟩
    | none =>
      rw [hp] at hkvc
      right
      obtain ⟨kv0, hkv0, hkv0e⟩ := List.mem_map.mp hkvc
      have hbmem : (batches 10 messages).getD n [] ∈ batches 10 messages :=
        getD_mem_of_lt _ [] n hn
      have : kv0 ∈ messages := by
        rw [← batches_flatten 10 (by omega) messages]
        exact List.mem_flatten_of_mem hbmem hkv0
      rw [← hkv0e]
      exact List.mem_map_of_mem _ this

/-- Witness for C1 (amended): two messages, a parseable response carrying
exactly the batch's keys — the result keeps the full key space and size. -/
theorem translate_completeness_amended_witness :
    keys (translateMessagesLegacy [("a", "x"), ("b", "y")]
        (fun _ => "\x7b\"a\":\"A\",\"b\":\"B\"\x7d")).acc
      = keys [("a", "x"), ("b", "y")]
    ∧ (translateMessagesLegacy [("a", "x"), ("b", "y")]
        (fun _ => "\x7b\"a\":\"A\",\"b\":\"B\"\x7d")).acc.length = 2 := by
  have h := translate_completeness_amended [("a", "x"), ("b", "y")]
    (fun _ => "\x7b\"a\":\"A\",\"b\":\"B\"\x7d") (by decide) ?_
  · exact ⟨h.1, h.2.1⟩
  · intro i hi
    have hi0 : i = 0 := by
      have hlen : (batches 10 [("a", "x"), ("b", "y")]).length = 1 := rfl
      omega
    subst hi0
    decide

/-! ### C2: containment of the result key space -/

/-- C2 counterexample: a parseable response with a key absent from the
input — the code merges it without filtering, so the result contains a
key that no input entry has. -/
theorem translate_keyspace_cex :
    (translateMessagesLegacy [("a", "x")] (fun _ => "\x7b\"zz\":\"B\"\x7d")).acc
      = [("zz", Json.str "B")]
    ∧ "zz" ∉ keys ([("a", "x")] : List (String × String)) := by
  exact ⟨rfl, by decide⟩

theorem setKey_keys_mem (r : List (String × α)) (k : String) (v : α) :
    ∀ x ∈ keys (setKey r k v), x ∈ keys r ∨ x = k := by
  unfold setKey
  intro x hx
  by_cases h : r.any (fun p => p.1 == k) = true
  · rw [if_pos h] at hx
    unfold keys at hx ⊢
    rw [List.map_map] at hx
    obtain ⟨p, hp, hpe⟩ := List.mem_map.mp hx
    by_cases hpk : p.1 = k
    · right
      rw [← hpe]
      simp [Function.comp, hpk]
    · left
      rw [← hpe]
      have : (Prod.fst ∘ fun p => if p.1 == k then (k, v) else p) p = p.1 := by
        simp [Function.comp, hpk]
      rw [this]
      exact List.mem_map_of_mem _ hp
  · rw [if_neg h] at hx
    rw [keys_append] at hx
    rcases List.mem_append.mp hx with hx | hx
    · exact Or.inl hx
    · right
      simpa [keys] using hx

theorem foldl_setKey_keys (pairs : List (String × α)) :
    ∀ acc x, x ∈ keys (pairs.foldl (fun r kv => setKey r kv.1 kv.2) acc) →
    x ∈ keys acc ∨ x ∈ keys pairs := by
  induction pairs with
  | nil => intro acc x hx; exact Or.inl hx
  | cons kv ps ih =>
    intro acc x hx
    simp only [List.foldl_cons] at hx
    rcases ih (setKey acc kv.1 kv.2) x hx with hx | hx
    · rcases setKey_keys_mem acc kv.1 kv.2 x hx with hx | hx
      · exact Or.inl hx
      · right
        simp [keys, hx]
    · right
      simp only [keys, List.map_cons, List.mem_cons]
      right
      exact hx

theorem foldl_legacy_keys (responses : Nat → String) (total : Nat) (K : List String) :
    ∀ (bs : List (List (String × String))) (st : OrchState (List (String × Json))),
    (∀ b ∈ bs, ∀ k ∈ keys b, k ∈ K) →
    (∀ i j, parsedSpan (responses i) = some j → ∀ k ∈ keys (jsonEntries j), k ∈ K) →
    (∀ k ∈ keys st.acc, k ∈ K) →
    ∀ k ∈ keys (bs.foldl (stepBatch reconcileBatchLegacy responses total) st).acc, k ∈ K := by
  intro bs
  induction bs with
  | nil => intro st _ _ hst k hk; exact hst k hk
  | cons b t ih =>
    intro st hbs hsub hst k hk
    simp only [List.foldl_cons] at hk
    refine ih (stepBatch reconcileBatchLegacy responses total st b)
      (fun x hx => hbs x (by simp [hx])) hsub ?_ k hk
    intro k' hk'
    have hk'' : k' ∈ keys (reconcileBatchLegacy b (responses st.invocations) st.acc) := hk'
    rw [reconcileBatchLegacy_eq] at hk''
    rcases foldl_setKey_keys _ st.acc k' hk'' with hx | hx
    · exact hst k' hx
    · unfold batchContribution at hx
      cases hp : parsedSpan (responses st.invocations) with
      | some j =>
        rw [hp] at hx
        exact hsub st.invocations j hp k' hx
      | none =>
        rw [hp] at hx
        rw [keys_stringify] at hx
        exact hbs b (by simp) k' hx

/-- C2 (amended): every key of the result comes from the input's key
space provided the keys of every parsed model response are input keys; in
general the result's keys are input keys or keys introduced by a parsed
response (the code merges parsed entries without filtering them against
the batch). -/
theorem translate_keyspace_amended (messages : List (String × String))
    (responses : Nat → String)
    (hsub : ∀ i j, parsedSpan (responses i) = some j →
      ∀ k ∈ keys (jsonEntries j), k ∈ keys messages) :
    ∀ k ∈ keys (translateMessagesLegacy messages responses).acc, k ∈ keys messages := by
  unfold translateMessagesLegacy runBatched
  refine foldl_legacy_keys responses messages.length (keys messages)
    (batches 10 messages) ⟨[], 0, [], 0⟩ ?_ hsub ?_
  · intro b hb k hk
    obtain ⟨p, hp, hpe⟩ := List.mem_map.mp hk
    have hpm : p ∈ messages := by
      rw [← batches_flatten 10 (by omega) messages]
      exact List.mem_flatten_of_mem hb hp
    rw [← hpe]
    exact List.mem_map_of_mem _ hpm
  · intro k hk
    simp [keys] at hk

/-- Witness for C2 (amended): with a response carrying exactly the input
key, the theorem places the result's key "a" inside the input key
space. -/
theorem translate_keyspace_amended_witness :
    ("a" : String) ∈ keys ([("a", "x")] : List (String × String)) := by
  refine translate_keyspace_amended [("a", "x")] (fun _ => "\x7b\"a\":\"A\"\x7d")
    ?_ "a" ?_
  · intro i j hj
    have hj' : (some (Json.obj [("a", Json.str "A")]) : Option Json) = some j := hj
    injection hj' with he
    subst he
    intro k hk
    simpa [keys, jsonEntries] using hk
  · decide

/-! ### Streaming JSON-array parser (`parseStreamingJsonArray`) -/

/-- Scanner state of `parseStreamingJsonArray`: the inside-the-array
flag, the brace depth (a JavaScript number, so it can go negative), the
in-string and escape flags, and the accumulated candidate object text. -/
structure ScanState where
  inArray : Bool
  depth : Int
  inString : Bool
  escaped : Bool
  cur : List Char

/-- The initial scanner state. -/
def scanInit : ScanState := ⟨false, 0, false, false, []⟩

/-- `currentObject += char` guarded by `depth > 0`. -/
def curPush (st : ScanState) (c : Char) : List Char :=
  if st.depth > 0 then st.cur ++ [c] else st.cur

/-- One character of the scanner loop, yielding a parsed object when the
matching close brace returns the depth to zero and the candidate text
parses (an unparseable candidate is discarded silently). -/
def scanStep (st : ScanState) (c : Char) : ScanState × Option Json :=
  if st.escaped then
    (⟨st.inArray, st.depth, st.inString, false, curPush st c⟩, none)
  else if c = '\\' ∧ st.inString then
    (⟨st.inArray, st.depth, st.inString, true, curPush st c⟩, none)
  else if c = '"' then
    (⟨st.inArray, st.depth, !st.inString, st.escaped, curPush st c⟩, none)
  else if st.inString then
    (⟨st.inArray, st.depth, st.inString, st.escaped, curPush st c⟩, none)
  else if c = '[' ∧ ¬st.inArray then
    (⟨true, st.depth, st.inString, st.escaped, st.cur⟩, none)
  else if ¬st.inArray then
    (st, none)
  else if c = '\x7b' then
    (⟨st.inArray, st.depth + 1, st.inString, st.escaped, st.cur ++ [c]⟩, none)
  else if c = '\x7d' then
    if st.depth - 1 ≠ 0 then
      (⟨st.inArray, st.depth - 1, st.inString, st.escaped, st.cur ++ [c]⟩, none)
    else
      (⟨st.inArray, st.depth - 1, st.inString, st.escaped, []⟩,
       tryParseJsonL (st.cur ++ [c]))
  else if st.depth > 0 then
    (⟨st.inArray, st.depth, st.inString, st.escaped, st.cur ++ [c]⟩, none)
  else (st, none)

/-- The scanner over a character sequence. -/
def scanChars (st : ScanState) : List Char → ScanState × List Json
  | [] => (st, [])
  | c :: rest =>
    let s1 := scanStep st c
    let s2 := scanChars s1.1 rest
    (s2.1, (match s1.2 with | some j => [j] | none => []) ++ s2.2)

/-- The scanner over the chunks of the stream (`for await` over chunks,
`for` over the characters of each chunk). -/
def scanChunks (st : ScanState) : List String → ScanState × List Json
  | [] => (st, [])
  | ch :: rest =>
    let s1 := scanChars st ch.toList
    let s2 := scanChunks s1.1 rest
    (s2.1, s1.2 ++ s2.2)

/-- `parseStreamingJsonArray` on a chunked stream: the parsed objects
yielded, in order. -/
def parseStreamingJsonArray (chunks : List String) : List Json :=
  (scanChunks scanInit chunks).2

example : parseStreamingJsonArray ["[\x7b\"key\":\"a\"\x7d, \x7b\"ke", "y\":\"b\"\x7d]"]
    = [Json.obj [("key", Json.str "a")], Json.obj [("key", Json.str "b")]] := by rfl
example : parseStreamingJsonArray ["[\x7b\"a\": \x7d,\x7b\"b\":1\x7d]"]
    = [Json.obj [("b", Json.num "1")]] := by rfl

theorem scanChars_append (a : List Char) :
    ∀ (st : ScanState) (b : List Char),
    scanChars st (a ++ b)
      = ((scanChars (scanChars st a).1 b).1,
         (scanChars st a).2 ++ (scanChars (scanChars st a).1 b).2) := by
  induction a with
  | nil => intro st b; simp [scanChars]
  | cons c t ih =>
    intro st b
    simp only [List.cons_append, scanChars, List.append_eq]
    rw [ih (scanStep st c).1 b]
    simp [List.append_assoc]

theorem scanChunks_eq_scanChars :
    ∀ (chunks : List String) (st : ScanState),
    scanChunks st chunks = scanChars st ((chunks.map String.toList).flatten) := by
  intro chunks
  induction chunks with
  | nil => intro st; simp [scanChunks, scanChars]
  | cons ch t ih =>
    intro st
    simp only [scanChunks, ih, List.map_cons, List.flatten_cons, scanChars_append]

theorem scanStep_inArray (st : ScanState) (c : Char) (h : st.inArray = true) :
    (scanStep st c).1.inArray = true := by
  unfold scanStep
  repeat' split
  all_goals simp_all

theorem scanChars_inArray (cs : List Char) :
    ∀ (st : ScanState), st.inArray = true → (scanChars st cs).1.inArray = true := by
  induction cs with
  | nil => intro st h; exact h
  | cons c t ih =>
    intro st h
    simp only [scanChars]
    exact ih _ (scanStep_inArray st c h)

/-- C10: the scanner never resets its inside-the-array flag — once the
first `[` sets it, it stays set through all further input — and top-level
objects appearing after the `]` that closes the first array (elements of
a later second array, or stray objects in trailing prose) are still
accumulated, parsed and yielded. -/
theorem streaming_inArray_sticky :
    (∀ (st : ScanState) (cs : List Char), st.inArray = true →
      (scanChars st cs).1.inArray = true)
    ∧ parseStreamingJsonArray ["[\x7b\"a\":\"x\"\x7d] tail \x7b\"b\":\"y\"\x7d"]
        = [Json.obj [("a", Json.str "x")], Json.obj [("b", Json.str "y")]]
    ∧ parseStreamingJsonArray ["[] [\x7b\"c\":true\x7d]"]
        = [Json.obj [("c", Json.bool true)]] := by
  refine ⟨fun st cs h => scanChars_inArray cs st h, by rfl, by rfl⟩

/-- Witness for C10: the sticky-flag clause applied to a concrete
mid-stream state. -/
theorem streaming_inArray_sticky_witness :
    (scanChars ⟨true, 0, false, false, []⟩ ("] done".toList)).1.inArray = true :=
  streaming_inArray_sticky.1 ⟨true, 0, false, false, []⟩ ("] done".toList) rfl

/-! ### Canonical rendering of JSON values -/

/-- Hexadecimal digit character for a value below 16. -/
def toHexDigit (n : Nat) : Char :=
  if n < 10 then Char.ofNat ('0'.toNat + n) else Char.ofNat ('a'.toNat + n - 10)

/-- JSON escaping of one string character: quote and backslash get a
backslash escape, control characters a `\u00XX` escape. -/
def escapeChar (c : Char) : List Char :=
  if c = '"' then ['\\', '"']
  else if c = '\\' then ['\\', '\\']
  else if c.toNat < 32 then
    ['\\', 'u', '0', '0', toHexDigit (c.toNat / 16), toHexDigit (c.toNat % 16)]
  else [c]

/-- Rendered JSON string literal, quotes included. -/
def renderString (s : String) : List Char :=
  '"' :: (s.toList.map escapeChar).flatten ++ ['"']

mutual

/-- Canonical no-whitespace rendering of a JSON value. -/
def renderJson : Json → List Char
  | .null => "null".toList
  | .bool true => "true".toList
  | .bool false => "false".toList
  | .num t => t.toList
  | .str s => renderString s
  | .arr xs => '[' :: renderList xs ++ [']']
  | .obj fs => '\x7b' :: renderFields fs ++ ['\x7d']

/-- Comma-separated renderings of array elements. -/
def renderList : List Json → List Char
  | [] => []
  | [x] => renderJson x
  | x :: y :: t => renderJson x ++ ',' :: renderList (y :: t)

/-- Comma-separated renderings of object members. -/
def renderFields : List (String × Json) → List Char
  | [] => []
  | [kv] => renderString kv.1 ++ ':' :: renderJson kv.2
  | kv :: kv2 :: t =>
    renderString kv.1 ++ ':' :: renderJson kv.2 ++ ',' :: renderFields (kv2 :: t)

end

/-- The canonical streamed text of a top-level array: elements separated
by ", " as in the model's output. -/
def renderStreamElems : List Json → List Char
  | [] => []
  | [x] => renderJson x
  | x :: y :: t => renderJson x ++ ',' :: ' ' :: renderStreamElems (y :: t)

/-- The canonical streamed text of a JSON array of values. -/
def renderArrStream (os : List Json) : List Char :=
  '[' :: renderStreamElems os ++ [']']

example : renderArrStream [Json.obj [("key", Json.str "a")], Json.obj [("key", Json.str "b")]]
    = "[\x7b\"key\":\"a\"\x7d, \x7b\"key\":\"b\"\x7d]".toList := by rfl

/-! ### Well-formed JSON values -/

/-- Every character is a decimal digit. -/
def AllDigits (l : List Char) : Prop := ∀ c ∈ l, c.isDigit = true

/-- Shape of the integer part of a JSON number token. -/
def IntShape (l : List Char) : Prop :=
  l = ['0'] ∨ ∃ d ds, l = d :: ds ∧ d.isDigit = true ∧ d ≠ '0' ∧ AllDigits ds

/-- Shape of the optional fraction part of a JSON number token. -/
def FracShape (l : List Char) : Prop :=
  l = [] ∨ ∃ ds, l = '.' :: ds ∧ ds ≠ [] ∧ AllDigits ds

/-- Shape of the optional exponent part of a JSON number token. -/
def ExpShape (l : List Char) : Prop :=
  l = [] ∨ ∃ e sgn ds, l = e :: (sgn ++ ds) ∧ (e = 'e' ∨ e = 'E')
    ∧ (sgn = [] ∨ sgn = ['+'] ∨ sgn = ['-']) ∧ ds ≠ [] ∧ AllDigits ds

/-- A well-formed JSON number token. -/
def NumShape (tok : String) : Prop :=
  ∃ neg ip fp ep, tok.toList = neg ++ ip ++ fp ++ ep
    ∧ (neg = [] ∨ neg = ['-']) ∧ IntShape ip ∧ FracShape fp ∧ ExpShape ep

/-- Well-formed JSON values: every number token has the JSON number
grammar shape (everything else is unconstrained). -/
inductive WFJ : Json → Prop where
  | null : WFJ .null
  | bool (b : Bool) : WFJ (.bool b)
  | num (t : String) : NumShape t → WFJ (.num t)
  | str (s : String) : WFJ (.str s)
  | arr (xs : List Json) : (∀ x ∈ xs, WFJ x) → WFJ (.arr xs)
  | obj (fs : List (String × Json)) :
      (∀ kv ∈ fs, WFJ kv.2) → (keys fs).Nodup → WFJ (.obj fs)

/-! ### Re-chunking invariance and parse-only yields -/

theorem parseStreaming_rechunk (c1 c2 : List String)
    (h : (c1.map String.toList).flatten = (c2.map String.toList).flatten) :
    parseStreamingJsonArray c1 = parseStreamingJsonArray c2 := by
  unfold parseStreamingJsonArray
  rw [scanChunks_eq_scanChars, scanChunks_eq_scanChars, h]

theorem scanStep_yield_parses (st : ScanState) (c : Char) (j : Json)
    (h : (scanStep st c).2 = some j) : ∃ s, tryParseJsonL s = some j := by
  refine ⟨st.cur ++ [c], ?_⟩
  unfold scanStep at h
  repeat' split at h
  all_goals simp_all

theorem scanChars_yields_parse (cs : List Char) :
    ∀ (st : ScanState) j, j ∈ (scanChars st cs).2 →
    ∃ s, tryParseJsonL s = some j := by
  induction cs with
  | nil => intro st j hj; simp [scanChars] at hj
  | cons c t ih =>
    intro st j hj
    simp only [scanChars, List.mem_append] at hj
    rcases hj with hj | hj
    · cases hy : (scanStep st c).2 with
      | none => rw [hy] at hj; simp at hj
      | some j0 =>
        rw [hy] at hj
        simp only [List.mem_singleton] at hj
        rw [hj]
        exact scanStep_yield_parses st c j0 hy
    · exact ih _ j hj

/-! ### Reduction lemmas for the JSON parser -/

theorem skipWs_cons (c : Char) (l : List Char) (h : isJsonWs c = false) :
    skipWs (c :: l) = c :: l := by
  rw [skipWs.eq_def]
  dsimp only
  rw [h]
  rfl

theorem isJsonWs_digit (c : Char) (hd : c.isDigit = true) : isJsonWs c = false := by
  rw [Bool.eq_false_iff]
  intro h
  simp only [isJsonWs, Bool.or_eq_true, decide_eq_true_eq] at h
  rcases h with ((h | h) | h) | h <;> rw [h] at hd <;> exact absurd hd (by decide)

theorem digit_ne (c x : Char) (hd : c.isDigit = true) (hx : x.isDigit = false) :
    c ≠ x := by
  intro h
  rw [h] at hd
  rw [hd] at hx
  exact Bool.noConfusion hx

theorem psb_quote (X : List Char) : parseStringBody ('"' :: X) = some ([], X) := by
  rw [parseStringBody.eq_def]
  dsimp only
  rw [if_pos (show ('"' : Char) = '"' from rfl)]

theorem psb_esc (X : List Char) (e u : Char) (heu : e ≠ 'u')
    (hu : unescapeChar e = some u) :
    parseStringBody ('\\' :: e :: X)
      = (parseStringBody X).map (fun p => (u :: p.1, p.2)) := by
  rw [parseStringBody.eq_def]
  dsimp only
  rw [if_neg (show ¬ ('\\' : Char) = '"' by decide)]
  rw [if_pos (show ('\\' : Char) = '\\' from rfl)]
  rw [if_neg heu, hu]

theorem psb_u (X : List Char) (a b c2 d : Char) (ha hb hc hd : Nat)
    (h1 : parseHexDigit a = some ha) (h2 : parseHexDigit b = some hb)
    (h3 : parseHexDigit c2 = some hc) (h4 : parseHexDigit d = some hd) :
    parseStringBody ('\\' :: 'u' :: a :: b :: c2 :: d :: X)
      = (parseStringBody X).map
          (fun p => (Char.ofNat (((ha * 16 + hb) * 16 + hc) * 16 + hd) :: p.1, p.2)) := by
  rw [parseStringBody.eq_def]
  dsimp only
  rw [if_neg (show ¬ ('\\' : Char) = '"' by decide)]
  rw [if_pos (show ('\\' : Char) = '\\' from rfl)]
  rw [if_pos (show ('u' : Char) = 'u' from rfl)]
  rw [h1, h2, h3, h4]

theorem psb_plain (X : List Char) (c : Char) (h1 : c ≠ '"') (h2 : c ≠ '\\')
    (h3 : ¬ c.toNat < 32) :
    parseStringBody (c :: X)
      = (parseStringBody X).map (fun p => (c :: p.1, p.2)) := by
  rw [parseStringBody.eq_def]
  dsimp only
  rw [if_neg h1, if_neg h2, if_neg h3]

theorem parseHexDigit_toHexDigit : ∀ n, n < 16 → parseHexDigit (toHexDigit n) = some n := by
  decide

/-- Decoding inverts escaping, one character at a time. -/
theorem parseStringBody_flat (s : List Char) :
    ∀ rest, parseStringBody ((s.map escapeChar).flatten ++ '"' :: rest)
      = some (s, rest) := by
  induction s with
  | nil =>
    intro rest
    simp only [List.map_nil, List.flatten_nil, List.nil_append]
    exact psb_quote rest
  | cons c t ih =>
    intro rest
    simp only [List.map_cons, List.flatten_cons, List.append_assoc]
    by_cases h1 : c = '"'
    · subst h1
      rw [show escapeChar '"' = ['\\', '"'] from rfl]
      rw [show (['\\', '"'] : List Char) ++ ((t.map escapeChar).flatten ++ '"' :: rest)
          = '\\' :: '"' :: ((t.map escapeChar).flatten ++ '"' :: rest) from rfl]
      rw [psb_esc _ '"' '"' (by decide) rfl, ih rest]
      rfl
    · by_cases h2 : c = '\\'
      · subst h2
        rw [show escapeChar '\\' = ['\\', '\\'] from rfl]
        rw [show (['\\', '\\'] : List Char) ++ ((t.map escapeChar).flatten ++ '"' :: rest)
            = '\\' :: '\\' :: ((t.map escapeChar).flatten ++ '"' :: rest) from rfl]
        rw [psb_esc _ '\\' '\\' (by decide) rfl, ih rest]
        rfl
      · by_cases h3 : c.toNat < 32
        · have he : escapeChar c
              = ['\\', 'u', '0', '0', toHexDigit (c.toNat / 16), toHexDigit (c.toNat % 16)] := by
            unfold escapeChar
            rw [if_neg h1, if_neg h2, if_pos h3]
          rw [he]
          rw [show (['\\', 'u', '0', '0', toHexDigit (c.toNat / 16), toHexDigit (c.toNat % 16)] : List Char)
                ++ ((t.map escapeChar).flatten ++ '"' :: rest)
              = '\\' :: 'u' :: '0' :: '0' :: toHexDigit (c.toNat / 16) :: toHexDigit (c.toNat % 16)
                :: ((t.map escapeChar).flatten ++ '"' :: rest) from rfl]
          rw [psb_u _ _ _ _ _ 0 0 (c.toNat / 16) (c.toNat % 16) (by decide) (by decide)
            (parseHexDigit_toHexDigit (c.toNat / 16) (by omega))
            (parseHexDigit_toHexDigit (c.toNat % 16) (by omega))]
          rw [ih rest]
          have hval : ((0 * 16 + 0) * 16 + c.toNat / 16) * 16 + c.toNat % 16 = c.toNat := by
            omega
          rw [hval, Char.ofNat_toNat]
          rfl
        · have he : escapeChar c = [c] := by
            unfold escapeChar
            rw [if_neg h1, if_neg h2, if_neg h3]
          rw [he]
          rw [List.singleton_append]
          rw [psb_plain _ c h1 h2 h3, ih rest]
          rfl

/-- The rendered string literal parses back to the string. -/
theorem parseStringBody_render (s : String) (rest : List Char) :
    parseStringBody (((s.toList.map escapeChar).flatten ++ ['"']) ++ rest)
      = some (s.toList, rest) := by
  rw [List.append_assoc, List.singleton_append]
  exact parseStringBody_flat s.toList rest

/-! ### Number-token round trip -/

/-- The remainder begins with no decimal digit. -/
def NonDigitHead (r : List Char) : Prop :=
  r = [] ∨ ∃ c t, r = c :: t ∧ c.isDigit = false

/-- The remainder after a complete value: empty, or a separator or
closing bracket. -/
def DelimL (r : List Char) : Prop :=
  r = [] ∨ ∃ c t, r = c :: t ∧ (c = ',' ∨ c = ']' ∨ c = '\x7d')

theorem DelimL_nonDigit (r : List Char) (h : DelimL r) : NonDigitHead r := by
  rcases h with rfl | ⟨c, t, rfl, hc⟩
  · exact Or.inl rfl
  · refine Or.inr ⟨c, t, rfl, ?_⟩
    rcases hc with rfl | rfl | rfl <;> decide

theorem takeDigits_all (ds : List Char) (h : AllDigits ds) :
    ∀ r, NonDigitHead r → takeDigits (ds ++ r) = (ds, r) := by
  induction ds with
  | nil =>
    intro r hr
    rcases hr with rfl | ⟨c, t, rfl, hc⟩
    · rfl
    · rw [List.nil_append, takeDigits.eq_def]
      dsimp only
      rw [hc]
      rfl
  | cons d ds ih =>
    intro r hr
    have hd : d.isDigit = true := h d (by simp)
    rw [List.cons_append, takeDigits.eq_def]
    dsimp only
    rw [hd, if_pos rfl]
    rw [ih (fun c hc => h c (List.mem_cons_of_mem d hc)) r hr]

theorem digits1_all (ds : List Char) (h : AllDigits ds) (hne : ds ≠ [])
    (r : List Char) (hr : NonDigitHead r) :
    digits1 (ds ++ r) = some (ds, r) := by
  unfold digits1
  rw [takeDigits_all ds h r hr]
  obtain ⟨d, ds', rfl⟩ : ∃ d ds', ds = d :: ds' := by
    cases ds with
    | nil => exact absurd rfl hne
    | cons d ds' => exact ⟨d, ds', rfl⟩
  rfl

theorem IntShape_cons (ip : List Char) (h : IntShape ip) :
    ∃ c cs, ip = c :: cs ∧ c.isDigit = true := by
  rcases h with rfl | ⟨d, ds, rfl, hd, _, _⟩
  · exact ⟨'0', [], rfl, by decide⟩
  · exact ⟨d, ds, rfl, hd⟩

theorem parseIntPart_shape (ip : List Char) (h : IntShape ip) (r : List Char)
    (hr : NonDigitHead r) :
    parseIntPart (ip ++ r) = some (ip, r) := by
  rcases h with rfl | ⟨d, ds, rfl, hd, hd0, hds⟩
  · rw [show (['0'] : List Char) ++ r = '0' :: r from rfl, parseIntPart.eq_def]
    dsimp only
    rw [if_pos rfl]
  · rw [List.cons_append, parseIntPart.eq_def]
    dsimp only
    rw [if_neg hd0, hd, if_pos rfl]
    rw [takeDigits_all ds hds r hr]

theorem parseFracOpt_none (r : List Char)
    (hr : r = [] ∨ ∃ c t, r = c :: t ∧ c ≠ '.') :
    parseFracOpt r = ([], r) := by
  rcases hr with rfl | ⟨c, t, rfl, hc⟩
  · rfl
  · rw [parseFracOpt.eq_def]
    dsimp only
    rw [if_neg hc]

theorem parseFracOpt_shape (ds : List Char) (hne : ds ≠ []) (hds : AllDigits ds)
    (r : List Char) (hr : NonDigitHead r) :
    parseFracOpt (('.' :: ds) ++ r) = ('.' :: ds, r) := by
  rw [List.cons_append, parseFracOpt.eq_def]
  dsimp only
  rw [if_pos rfl, digits1_all ds hds hne r hr]

theorem parseExpOpt_none (r : List Char)
    (hr : r = [] ∨ ∃ c t, r = c :: t ∧ ¬(c = 'e' ∨ c = 'E')) :
    parseExpOpt r = ([], r) := by
  rcases hr with rfl | ⟨c, t, rfl, hc⟩
  · rfl
  · rw [parseExpOpt.eq_def]
    dsimp only
    rw [if_neg hc]

theorem parseExpOpt_shape (e : Char) (he : e = 'e' ∨ e = 'E')
    (sgn ds : List Char) (hsgn : sgn = [] ∨ sgn = ['+'] ∨ sgn = ['-'])
    (hne : ds ≠ []) (hds : AllDigits ds)
    (r : List Char) (hr : NonDigitHead r) :
    parseExpOpt ((e :: (sgn ++ ds)) ++ r) = (e :: (sgn ++ ds), r) := by
  obtain ⟨d, ds', rfl⟩ : ∃ d ds', ds = d :: ds' := by
    cases ds with
    | nil => exact absurd rfl hne
    | cons d ds' => exact ⟨d, ds', rfl⟩
  have hdd : d.isDigit = true := hds d (by simp)
  rcases hsgn with rfl | rfl | rfl
  · rw [List.nil_append, List.cons_append, parseExpOpt.eq_def]
    dsimp only
    rw [if_pos he]
    rw [List.cons_append]
    simp only [parseExpTail.eq_def]
    rw [if_neg (show ¬(d = '+' ∨ d = '-') by
      rintro (rfl | rfl) <;> exact absurd hdd (by decide))]
    rw [show d :: (ds' ++ r) = (d :: ds') ++ r from rfl,
      digits1_all (d :: ds') hds hne r hr]
  · rw [show (('+' :: []) ++ (d :: ds')) = '+' :: d :: ds' from rfl]
    rw [List.cons_append, parseExpOpt.eq_def]
    dsimp only
    rw [if_pos he]
    rw [List.cons_append]
    simp only [parseExpTail.eq_def]
    rw [if_pos (Or.inl trivial)]
    rw [digits1_all (d :: ds') hds hne r hr]
  · rw [show (('-' :: []) ++ (d :: ds')) = '-' :: d :: ds' from rfl]
    rw [List.cons_append, parseExpOpt.eq_def]
    dsimp only
    rw [if_pos he]
    rw [List.cons_append]
    simp only [parseExpTail.eq_def]
    rw [if_pos (Or.inr trivial)]
    rw [digits1_all (d :: ds') hds hne r hr]

theorem delim_notDot (r : List Char) (hr : DelimL r) :
    r = [] ∨ ∃ c t, r = c :: t ∧ c ≠ '.' := by
  rcases hr with rfl | ⟨c, t, rfl, hc⟩
  · exact Or.inl rfl
  · exact Or.inr ⟨c, t, rfl, by rcases hc with rfl | rfl | rfl <;> decide⟩

theorem delim_notExp (r : List Char) (hr : DelimL r) :
    r = [] ∨ ∃ c t, r = c :: t ∧ ¬(c = 'e' ∨ c = 'E') := by
  rcases hr with rfl | ⟨c, t, rfl, hc⟩
  · exact Or.inl rfl
  · exact Or.inr ⟨c, t, rfl, by rcases hc with rfl | rfl | rfl <;> decide⟩

theorem exp_delim_notDot (ep r : List Char) (hep : ExpShape ep) (hr : DelimL r) :
    ep ++ r = [] ∨ ∃ c t, ep ++ r = c :: t ∧ c ≠ '.' := by
  rcases hep with rfl | ⟨e, sgn, ds, rfl, he, _, _, _⟩
  · rw [List.nil_append]
    exact delim_notDot r hr
  · rw [List.cons_append]
    exact Or.inr ⟨e, _, rfl, by rcases he with rfl | rfl <;> decide⟩

theorem frac_exp_delim_nonDigit (fp ep r : List Char) (hfp : FracShape fp)
    (hep : ExpShape ep) (hr : DelimL r) : NonDigitHead (fp ++ (ep ++ r)) := by
  rcases hfp with rfl | ⟨ds, rfl, _, _⟩
  · rw [List.nil_append]
    rcases hep with rfl | ⟨e, sgn, ds, rfl, he, _, _, _⟩
    · rw [List.nil_append]
      exact DelimL_nonDigit r hr
    · rw [List.cons_append]
      exact Or.inr ⟨e, _, rfl, by rcases he with rfl | rfl <;> decide⟩
  · rw [List.cons_append]
    exact Or.inr ⟨'.', _, rfl, by decide⟩

theorem exp_delim_nonDigit (ep r : List Char) (hep : ExpShape ep) (hr : DelimL r) :
    NonDigitHead (ep ++ r) := by
  rcases hep with rfl | ⟨e, sgn, ds, rfl, he, _, _, _⟩
  · rw [List.nil_append]
    exact DelimL_nonDigit r hr
  · rw [List.cons_append]
    exact Or.inr ⟨e, _, rfl, by rcases he with rfl | rfl <;> decide⟩

theorem parseNumTail_shape (ip fp ep : List Char) (hip : IntShape ip)
    (hfp : FracShape fp) (hep : ExpShape ep) (r : List Char) (hr : DelimL r) :
    parseNumTail (ip ++ (fp ++ (ep ++ r))) = some (ip ++ fp ++ ep, r) := by
  unfold parseNumTail
  rw [parseIntPart_shape ip hip _ (frac_exp_delim_nonDigit fp ep r hfp hep hr)]
  dsimp only
  rcases hfp with rfl | ⟨ds, rfl, hdsne, hds⟩
  · rw [List.nil_append]
    rw [parseFracOpt_none _ (exp_delim_notDot ep r hep hr)]
    dsimp only
    rcases hep with rfl | ⟨e, sgn, ds2, rfl, he, hsgn, hdsne2, hds2⟩
    · rw [List.nil_append, parseExpOpt_none r (delim_notExp r hr)]
      try simp
    · rw [parseExpOpt_shape e he sgn ds2 hsgn hdsne2 hds2 r (DelimL_nonDigit r hr)]
      try simp
  · rw [parseFracOpt_shape ds hdsne hds _ (exp_delim_nonDigit ep r hep hr)]
    dsimp only
    rcases hep with rfl | ⟨e, sgn, ds2, rfl, he, hsgn, hdsne2, hds2⟩
    · rw [List.nil_append, parseExpOpt_none r (delim_notExp r hr)]
      try simp
    · rw [parseExpOpt_shape e he sgn ds2 hsgn hdsne2 hds2 r (DelimL_nonDigit r hr)]
      try simp

theorem parseNumber_shape (tok : String) (h : NumShape tok) (r : List Char)
    (hr : DelimL r) :
    parseNumber (tok.toList ++ r) = some (tok.toList, r) := by
  obtain ⟨neg, ip, fp, ep, htok, hneg, hip, hfp, hep⟩ := h
  obtain ⟨c, cs, hcs, hcdig⟩ := IntShape_cons ip hip
  rcases hneg with rfl | rfl
  · rw [htok, List.nil_append]
    rw [List.append_assoc ip fp ep, List.append_assoc ip]
    rw [hcs, List.cons_append, parseNumber.eq_def]
    dsimp only
    rw [if_neg (digit_ne c '-' hcdig (by decide))]
    rw [← List.cons_append, ← hcs]
    rw [List.append_assoc fp ep r]
    rw [parseNumTail_shape ip fp ep hip hfp hep r hr]
    simp [List.append_assoc]
  · rw [htok]
    rw [show ((['-'] ++ ip) ++ fp) ++ ep = '-' :: (ip ++ fp ++ ep) by simp]
    rw [List.cons_append, parseNumber.eq_def]
    dsimp only
    rw [if_pos rfl]
    rw [List.append_assoc ip fp ep, List.append_assoc ip, List.append_assoc fp ep r]
    rw [parseNumTail_shape ip fp ep hip hfp hep r hr]
    simp [List.append_assoc]

/-! ### Fuel accounting and render head shapes -/

mutual

/-- Fuel needed to parse a rendered value. -/
def sizeJ : Json → Nat
  | .null => 1
  | .bool _ => 1
  | .num _ => 1
  | .str _ => 1
  | .arr xs => 2 + sizeL xs
  | .obj fs => 2 + sizeF fs

/-- Fuel needed for the elements of a rendered array. -/
def sizeL : List Json → Nat
  | [] => 0
  | x :: t => sizeJ x + 1 + sizeL t

/-- Fuel needed for the members of a rendered object. -/
def sizeF : List (String × Json) → Nat
  | [] => 0
  | kv :: t => sizeJ kv.2 + 2 + sizeF t

end

theorem sizeJ_pos (v : Json) : 1 ≤ sizeJ v := by
  cases v <;> simp [sizeJ] <;> omega

/-- Separator-prefixed rendering of the remaining array elements. -/
def renderListSep : List Json → List Char
  | [] => []
  | x :: t => ',' :: renderJson x ++ renderListSep t

/-- Separator-prefixed rendering of the remaining object members. -/
def renderFieldsSep : List (String × Json) → List Char
  | [] => []
  | kv :: t => ',' :: renderString kv.1 ++ ':' :: renderJson kv.2 ++ renderFieldsSep t

theorem renderList_cons (x : Json) (t : List Json) :
    renderList (x :: t) = renderJson x ++ renderListSep t := by
  induction t generalizing x with
  | nil => simp [renderList, renderListSep]
  | cons y t2 ih =>
    rw [renderList, renderListSep, ih y]
    simp

theorem renderFields_cons (kv : String × Json) (t : List (String × Json)) :
    renderFields (kv :: t)
      = renderString kv.1 ++ ':' :: renderJson kv.2 ++ renderFieldsSep t := by
  induction t generalizing kv with
  | nil => simp [renderFields, renderFieldsSep]
  | cons kv2 t2 ih =>
    rw [renderFields, renderFieldsSep, ih kv2]
    simp

theorem NumShape_head (tok : String) (h : NumShape tok) :
    ∃ c cs, tok.toList = c :: cs ∧ (c = '-' ∨ c.isDigit = true) := by
  obtain ⟨neg, ip, fp, ep, htok, hneg, hip, _, _⟩ := h
  obtain ⟨d, ds, hds, hdd⟩ := IntShape_cons ip hip
  rcases hneg with rfl | rfl
  · rw [htok, hds, List.nil_append]
    exact ⟨d, _, by rw [List.cons_append, List.cons_append], Or.inr hdd⟩
  · rw [htok]
    exact ⟨'-', _, by rw [show (['-'] : List Char) ++ ip = '-' :: ip from rfl,
      List.cons_append, List.cons_append], Or.inl rfl⟩

/-- The first character of a rendered well-formed value: never whitespace
and never a closing bracket, closing brace, comma or colon. -/
theorem renderJson_head (v : Json) (hv : WFJ v) :
    ∃ c cs, renderJson v = c :: cs ∧ isJsonWs c = false
      ∧ c ≠ ']' ∧ c ≠ '\x7d' ∧ c ≠ ',' := by
  cases hv with
  | null => exact ⟨'n', _, rfl, by decide, by decide, by decide, by decide⟩
  | bool b =>
    cases b
    · exact ⟨'f', _, rfl, by decide, by decide, by decide, by decide⟩
    · exact ⟨'t', _, rfl, by decide, by decide, by decide, by decide⟩
  | num t ht =>
    obtain ⟨c, cs, hcs, hc⟩ := NumShape_head t ht
    refine ⟨c, cs, by rw [show renderJson (.num t) = t.toList from rfl, hcs], ?_, ?_, ?_, ?_⟩
    · rcases hc with rfl | hc
      · decide
      · exact isJsonWs_digit c hc
    · rcases hc with rfl | hc
      · decide
      · exact digit_ne c ']' hc (by decide)
    · rcases hc with rfl | hc
      · decide
      · exact digit_ne c '\x7d' hc (by decide)
    · rcases hc with rfl | hc
      · decide
      · exact digit_ne c ',' hc (by decide)
  | str s =>
    exact ⟨'"', _, rfl, by decide, by decide, by decide, by decide⟩
  | arr xs _ =>
    exact ⟨'[', _, rfl, by decide, by decide, by decide, by decide⟩
  | obj fs _ _ =>
    exact ⟨'\x7b', _, rfl, by decide, by decide, by decide, by decide⟩

theorem DelimL_listSep (t : List Json) (rest : List Char) :
    DelimL (renderListSep t ++ ']' :: rest) := by
  cases t with
  | nil => exact Or.inr ⟨']', rest, rfl, Or.inr (Or.inl rfl)⟩
  | cons y t2 =>
    refine Or.inr ⟨',', renderJson y ++ renderListSep t2 ++ ']' :: rest, ?_, Or.inl rfl⟩
    rw [renderListSep]
    simp

theorem DelimL_fieldsSep (t : List (String × Json)) (rest : List Char) :
    DelimL (renderFieldsSep t ++ '\x7d' :: rest) := by
  cases t with
  | nil => exact Or.inr ⟨'\x7d', rest, rfl, Or.inr (Or.inr rfl)⟩
  | cons kv t2 =>
    refine Or.inr ⟨',', renderString kv.1 ++ ':' :: renderJson kv.2
      ++ renderFieldsSep t2 ++ '\x7d' :: rest, ?_, Or.inl rfl⟩
    rw [renderFieldsSep]
    simp

/-- A rendered `"key": value` member parses back. -/
theorem parseMember_render (k : String) (v : Json)
    (IH : ∀ fuel rest, sizeJ v ≤ fuel → DelimL rest →
      parseValue fuel (renderJson v ++ rest) = some (v, rest))
    (fuel : Nat) (rest : List Char) (hf : sizeJ v + 1 ≤ fuel) (hrest : DelimL rest) :
    parseMember fuel (renderString k ++ ':' :: renderJson v ++ rest)
      = some ((k, v), rest) := by
  obtain ⟨f, rfl⟩ : ∃ f, fuel = f + 1 := ⟨fuel - 1, by omega⟩
  rw [renderString, parseMember.eq_def]
  dsimp only
  simp only [List.cons_append]
  rw [skipWs_cons _ _ (by decide)]
  simp [parseStringBody_flat k.data (':' :: (renderJson v ++ rest)),
    skipWs_cons, isJsonWs, IH f rest (by omega) hrest]

/-- Rendered remaining array elements parse back, extending the
accumulator in order. -/
theorem parseArrRest_render (t : List Json) :
    (∀ x ∈ t, ∀ fuel rest, sizeJ x ≤ fuel → DelimL rest →
        parseValue fuel (renderJson x ++ rest) = some (x, rest)) →
    ∀ fuel acc rest, sizeL t + 1 ≤ fuel → DelimL rest →
      parseArrRest fuel acc (renderListSep t ++ ']' :: rest)
        = some (.arr (acc ++ t), rest) := by
  induction t with
  | nil =>
    intro _ fuel acc rest hfuel _
    obtain ⟨f, rfl⟩ : ∃ f, fuel = f + 1 := ⟨fuel - 1, by omega⟩
    rw [renderListSep, List.nil_append, parseArrRest.eq_def]
    dsimp only
    rw [skipWs_cons _ _ (by decide)]
    simp
  | cons y t2 ih =>
    intro IH fuel acc rest hfuel hrest
    simp only [sizeL] at hfuel
    obtain ⟨f, rfl⟩ : ∃ f, fuel = f + 1 := ⟨fuel - 1, by omega⟩
    rw [renderListSep, parseArrRest.eq_def]
    dsimp only
    simp only [List.cons_append, List.append_assoc]
    rw [skipWs_cons _ _ (by decide)]
    have hy := IH y (by simp) f (renderListSep t2 ++ ']' :: rest)
      (by omega) (DelimL_listSep t2 rest)
    have ht2 := ih (fun x hx => IH x (by simp [hx])) f (acc ++ [y]) rest
      (by omega) hrest
    simp [hy, ht2]

/-- Rendered remaining object members parse back, appending to the
accumulator in order when all keys are fresh. -/
theorem parseObjRest_render (t : List (String × Json)) :
    (∀ kv ∈ t, ∀ fuel rest, sizeJ kv.2 ≤ fuel → DelimL rest →
        parseValue fuel (renderJson kv.2 ++ rest) = some (kv.2, rest)) →
    ∀ fuel acc rest, sizeF t + 1 ≤ fuel → DelimL rest →
      (∀ kv ∈ t, ∀ p ∈ acc, p.1 ≠ kv.1) → (keys t).Nodup →
      parseObjRest fuel acc (renderFieldsSep t ++ '\x7d' :: rest)
        = some (.obj (acc ++ t), rest) := by
  induction t with
  | nil =>
    intro _ fuel acc rest hfuel _ _ _
    obtain ⟨f, rfl⟩ : ∃ f, fuel = f + 1 := ⟨fuel - 1, by omega⟩
    rw [renderFieldsSep, List.nil_append, parseObjRest.eq_def]
    dsimp only
    rw [skipWs_cons _ _ (by decide)]
    simp
  | cons y t2 ih =>
    intro IH fuel acc rest hfuel hrest hfresh hnd
    simp only [sizeF] at hfuel
    obtain ⟨f, rfl⟩ : ∃ f, fuel = f + 1 := ⟨fuel - 1, by omega⟩
    have hnd2 : y.1 ∉ keys t2 ∧ (keys t2).Nodup := by
      have h0 := hnd
      simp only [keys, List.map_cons, List.nodup_cons] at h0
      exact ⟨by intro hmem; exact h0.1 (by simpa [keys] using hmem), by
        simpa [keys] using h0.2⟩
    rw [renderFieldsSep, parseObjRest.eq_def]
    dsimp only
    simp only [List.cons_append, List.append_assoc]
    rw [skipWs_cons _ _ (by decide)]
    have hy := parseMember_render y.1 y.2 (IH y (by simp)) f
      (renderFieldsSep t2 ++ '\x7d' :: rest) (by omega) (DelimL_fieldsSep t2 rest)
    simp only [List.cons_append, List.append_assoc] at hy
    have hset : setKey acc y.1 y.2 = acc ++ [y] := by
      rw [setKey_fresh acc y.1 y.2 (fun p hp => hfresh y (by simp) p hp)]
    have hfresh2 : ∀ kv ∈ t2, ∀ p ∈ acc ++ [y], p.1 ≠ kv.1 := by
      intro kv hkv p hp
      rcases List.mem_append.mp hp with hpa | hpy
      · exact hfresh kv (by simp [hkv]) p hpa
      · have hpy2 : p = y := by simpa using hpy
        subst hpy2
        intro heq
        exact hnd2.1 (heq ▸ List.mem_map_of_mem Prod.fst hkv)
    have ht2 := ih (fun kv hkv => IH kv (by simp [hkv])) f (acc ++ [y]) rest
      (by omega) hrest hfresh2 hnd2.2
    simp [hy, hset, ht2]

/-- A rendered well-formed JSON value parses back to itself, consuming
exactly its rendering. -/
theorem parseValue_render (v : Json) (hv : WFJ v) :
    ∀ fuel rest, sizeJ v ≤ fuel → DelimL rest →
      parseValue fuel (renderJson v ++ rest) = some (v, rest) := by
  induction hv with
  | null =>
    intro fuel rest hfuel _
    obtain ⟨f, rfl⟩ : ∃ f, fuel = f + 1 := ⟨fuel - 1, by
      simp only [sizeJ] at hfuel; omega⟩
    rw [show renderJson .null ++ rest = 'n' :: 'u' :: 'l' :: 'l' :: rest from rfl]
    rw [parseValue.eq_def]
    dsimp only
    rw [skipWs_cons _ _ (by decide)]
    simp
  | bool b =>
    intro fuel rest hfuel _
    obtain ⟨f, rfl⟩ : ∃ f, fuel = f + 1 := ⟨fuel - 1, by
      simp only [sizeJ] at hfuel; omega⟩
    cases b
    · rw [show renderJson (.bool false) ++ rest
        = 'f' :: 'a' :: 'l' :: 's' :: 'e' :: rest from rfl]
      rw [parseValue.eq_def]
      dsimp only
      rw [skipWs_cons _ _ (by decide)]
      simp
    · rw [show renderJson (.bool true) ++ rest
        = 't' :: 'r' :: 'u' :: 'e' :: rest from rfl]
      rw [parseValue.eq_def]
      dsimp only
      rw [skipWs_cons _ _ (by decide)]
      simp
  | num t ht =>
    intro fuel rest hfuel hrest
    obtain ⟨f, rfl⟩ : ∃ f, fuel = f + 1 := ⟨fuel - 1, by
      simp only [sizeJ] at hfuel; omega⟩
    obtain ⟨c, cs, hcs, hc⟩ := NumShape_head t ht
    have hnum := parseNumber_shape t ht rest hrest
    rw [hcs, List.cons_append] at hnum
    have hmk : String.mk (c :: cs) = t := by rw [← hcs]; rfl
    have hnws : isJsonWs c = false := by
      rcases hc with rfl | hd
      · decide
      · exact isJsonWs_digit c hd
    have h1 : c ≠ 'n' := by
      rcases hc with rfl | hd
      · decide
      · exact digit_ne c 'n' hd (by decide)
    have h2 : c ≠ 't' := by
      rcases hc with rfl | hd
      · decide
      · exact digit_ne c 't' hd (by decide)
    have h3 : c ≠ 'f' := by
      rcases hc with rfl | hd
      · decide
      · exact digit_ne c 'f' hd (by decide)
    have h4 : c ≠ '"' := by
      rcases hc with rfl | hd
      · decide
      · exact digit_ne c '"' hd (by decide)
    have h5 : c ≠ '[' := by
      rcases hc with rfl | hd
      · decide
      · exact digit_ne c '[' hd (by decide)
    have h6 : c ≠ '\x7b' := by
      rcases hc with rfl | hd
      · decide
      · exact digit_ne c '\x7b' hd (by decide)
    rw [show renderJson (.num t) = t.toList from rfl, hcs, List.cons_append]
    rw [parseValue.eq_def]
    dsimp only
    rw [skipWs_cons _ _ hnws]
    simp [h1, h2, h3, h4, h5, h6, hnum, hmk]
  | str s =>
    intro fuel rest hfuel _
    obtain ⟨f, rfl⟩ : ∃ f, fuel = f + 1 := ⟨fuel - 1, by
      simp only [sizeJ] at hfuel; omega⟩
    rw [show renderJson (.str s) = renderString s from rfl, renderString]
    rw [parseValue.eq_def]
    dsimp only
    simp only [List.cons_append]
    rw [skipWs_cons _ _ (by decide)]
    simp [parseStringBody_flat s.data rest]
  | arr xs hmem ih =>
    intro fuel rest hfuel hrest
    simp only [sizeJ] at hfuel
    obtain ⟨f, rfl⟩ : ∃ f, fuel = f + 1 := ⟨fuel - 1, by omega⟩
    cases xs with
    | nil =>
      rw [show renderJson (.arr []) ++ rest = '[' :: ']' :: rest from rfl]
      rw [parseValue.eq_def]
      dsimp only
      rw [skipWs_cons _ _ (by decide)]
      simp [skipWs_cons, isJsonWs]
    | cons x t =>
      simp only [sizeL] at hfuel
      obtain ⟨c0, cs0, hx0, hnws0, hne0, _, _⟩ := renderJson_head x (hmem x (by simp))
      have hx := ih x (by simp) f (renderListSep t ++ ']' :: rest)
        (by omega) (DelimL_listSep t rest)
      rw [hx0] at hx
      simp only [List.cons_append, List.append_assoc] at hx
      have ht := parseArrRest_render t (fun z hz => ih z (by simp [hz])) f [x] rest
        (by omega) hrest
      rw [show renderJson (.arr (x :: t)) = '[' :: renderList (x :: t) ++ [']'] from rfl]
      rw [renderList_cons]
      rw [parseValue.eq_def]
      dsimp only
      simp only [List.cons_append, List.append_assoc]
      rw [skipWs_cons _ _ (by decide)]
      simp [hx0, skipWs_cons _ _ hnws0, hne0, hx, ht]
  | obj fs hmem hnd ih =>
    intro fuel rest hfuel hrest
    simp only [sizeJ] at hfuel
    obtain ⟨f, rfl⟩ : ∃ f, fuel = f + 1 := ⟨fuel - 1, by omega⟩
    cases fs with
    | nil =>
      rw [show renderJson (.obj []) ++ rest = '\x7b' :: '\x7d' :: rest from rfl]
      rw [parseValue.eq_def]
      dsimp only
      rw [skipWs_cons _ _ (by decide)]
      simp [skipWs_cons, isJsonWs]
    | cons kv t =>
      simp only [sizeF] at hfuel
      have hndc : kv.1 ∉ keys t ∧ (keys t).Nodup := by
        have h0 := hnd
        simp only [keys, List.map_cons, List.nodup_cons] at h0
        exact ⟨by intro hmem2; exact h0.1 (by simpa [keys] using hmem2), by
          simpa [keys] using h0.2⟩
      have hm := parseMember_render kv.1 kv.2 (ih kv (by simp)) f
        (renderFieldsSep t ++ '\x7d' :: rest) (by omega) (DelimL_fieldsSep t rest)
      rw [renderString] at hm
      simp only [List.cons_append, List.append_assoc, List.singleton_append,
        List.nil_append, String.toList] at hm
      have hfresh : ∀ kv2 ∈ t, ∀ p ∈ ([kv] : List (String × Json)), p.1 ≠ kv2.1 := by
        intro kv2 hkv2 p hp
        have hpk : p = kv := by simpa using hp
        subst hpk
        intro heq
        exact hndc.1 (heq ▸ List.mem_map_of_mem Prod.fst hkv2)
      have hto := parseObjRest_render t (fun z hz => ih z (by simp [hz])) f [kv] rest
        (by omega) hrest hfresh hndc.2
      rw [show renderJson (.obj (kv :: t))
        = '\x7b' :: renderFields (kv :: t) ++ ['\x7d'] from rfl]
      rw [renderFields_cons, renderString]
      rw [parseValue.eq_def]
      dsimp only
      simp only [List.cons_append, List.append_assoc]
      rw [skipWs_cons _ _ (by decide)]
      simp [skipWs_cons, isJsonWs, hm, setKey, hto]

theorem sizeL_le_sep (t : List Json)
    (hb : ∀ x ∈ t, sizeJ x + 1 ≤ 2 * (renderJson x).length) :
    sizeL t ≤ 2 * (renderListSep t).length := by
  induction t with
  | nil => simp [sizeL, renderListSep]
  | cons y t2 ih =>
    have h1 := hb y (by simp)
    have h2 := ih (fun x hx => hb x (by simp [hx]))
    simp only [sizeL, renderListSep, List.length_cons, List.length_append]
    omega

theorem sizeF_le_sep (t : List (String × Json))
    (hb : ∀ kv ∈ t, sizeJ kv.2 + 1 ≤ 2 * (renderJson kv.2).length) :
    sizeF t ≤ 2 * (renderFieldsSep t).length := by
  induction t with
  | nil => simp [sizeF, renderFieldsSep]
  | cons y t2 ih =>
    have h1 := hb y (by simp)
    have h2 := ih (fun x hx => hb x (by simp [hx]))
    simp only [sizeF, renderFieldsSep, List.length_cons, List.length_append]
    omega

/-- The fuel a rendered value needs is within the default fuel budget. -/
theorem sizeJ_le (v : Json) (hv : WFJ v) :
    sizeJ v + 1 ≤ 2 * (renderJson v).length := by
  induction hv with
  | null => simp [sizeJ, renderJson]
  | bool b => cases b <;> simp [sizeJ, renderJson]
  | num t ht =>
    obtain ⟨c, cs, hcs, _⟩ := NumShape_head t ht
    simp only [sizeJ, renderJson, hcs, List.length_cons]
    omega
  | str s =>
    simp only [sizeJ, renderJson, renderString, List.length_cons, List.length_append]
    omega
  | arr xs hmem ih =>
    cases xs with
    | nil => simp [sizeJ, sizeL, renderJson, renderList]
    | cons x t =>
      have h1 := ih x (by simp)
      have h2 := sizeL_le_sep t (fun z hz => ih z (by simp [hz]))
      simp only [sizeJ, sizeL, renderJson, renderList_cons, List.length_cons,
        List.length_append]
      omega
  | obj fs hmem hnd ih =>
    cases fs with
    | nil => simp [sizeJ, sizeF, renderJson, renderFields]
    | cons kv t =>
      have h1 := ih kv (by simp)
      have h2 := sizeF_le_sep t (fun z hz => ih z (by simp [hz]))
      simp only [sizeJ, sizeF, renderJson, renderFields_cons, List.length_cons,
        List.length_append]
      omega

/-- `JSON.parse` inverts rendering on well-formed values. -/
theorem tryParseJsonL_render (v : Json) (hv : WFJ v) :
    tryParseJsonL (renderJson v) = some v := by
  unfold tryParseJsonL
  have h := parseValue_render v hv (2 * (renderJson v).length + 2) []
    (by have := sizeJ_le v hv; omega) (Or.inl rfl)
  rw [List.append_nil] at h
  rw [h]
  simp [skipWs]

/-! ### Scanner behaviour on rendered arrays of objects -/

/-- Character sequences the scanner passes through while at positive
depth: state preserved, text appended to the candidate, nothing
yielded. -/
def Transparent (cs : List Char) : Prop :=
  ∀ (d : Int) (cur : List Char), 0 < d →
    scanChars ⟨true, d, false, false, cur⟩ cs
      = (⟨true, d, false, false, cur ++ cs⟩, [])

theorem transparent_nil : Transparent [] := by
  intro d cur _
  simp [scanChars]

theorem transparent_append (a b : List Char) (ha : Transparent a)
    (hb : Transparent b) : Transparent (a ++ b) := by
  intro d cur hd
  rw [scanChars_append, ha d cur hd]
  dsimp only
  rw [hb d (cur ++ a) hd]
  simp [List.append_assoc]

theorem scanStep_plain (st : ScanState) (c : Char) (h1 : st.escaped = false)
    (h2 : st.inString = false) (h3 : st.inArray = true) (h4 : c ≠ '"')
    (h5 : c ≠ '\x7b') (h6 : c ≠ '\x7d') (h7 : 0 < st.depth) :
    scanStep st c = (⟨true, st.depth, false, false, st.cur ++ [c]⟩, none) := by
  simp [scanStep, h1, h2, h3, h4, h5, h6, h7]

theorem scanStep_instring (st : ScanState) (c : Char) (h1 : st.escaped = false)
    (h2 : st.inString = true) (h4 : c ≠ '"') (h5 : c ≠ '\\')
    (h7 : 0 < st.depth) :
    scanStep st c = (⟨st.inArray, st.depth, true, false, st.cur ++ [c]⟩, none) := by
  simp [scanStep, h1, h2, h4, h5, curPush, h7]

theorem scanStep_bslash (st : ScanState) (h1 : st.escaped = false)
    (h2 : st.inString = true) (h7 : 0 < st.depth) :
    scanStep st '\\' = (⟨st.inArray, st.depth, true, true, st.cur ++ ['\\']⟩, none) := by
  simp [scanStep, h1, h2, curPush, h7]

theorem scanStep_esc (st : ScanState) (c : Char) (h1 : st.escaped = true)
    (h7 : 0 < st.depth) :
    scanStep st c = (⟨st.inArray, st.depth, st.inString, false, st.cur ++ [c]⟩, none) := by
  simp [scanStep, h1, curPush, h7]

theorem scanStep_quote (st : ScanState) (h1 : st.escaped = false)
    (h7 : 0 < st.depth) :
    scanStep st '"'
      = (⟨st.inArray, st.depth, !st.inString, false, st.cur ++ ['"']⟩, none) := by
  simp [scanStep, h1, curPush, h7]

theorem transparent_plain (cs : List Char)
    (h : ∀ c ∈ cs, c ≠ '"' ∧ c ≠ '\x7b' ∧ c ≠ '\x7d') : Transparent cs := by
  induction cs with
  | nil => exact transparent_nil
  | cons c t ih =>
    intro d cur hd
    obtain ⟨h4, h5, h6⟩ := h c (by simp)
    simp only [scanChars]
    rw [scanStep_plain _ c rfl rfl rfl h4 h5 h6 hd]
    dsimp only
    rw [ih (fun z hz => h z (by simp [hz])) d (cur ++ [c]) hd]
    simp


theorem toHexDigit_ne (n : Nat) (h : n < 16) :
    toHexDigit n ≠ '"' ∧ toHexDigit n ≠ '\\' := by
  revert h
  revert n
  decide

theorem scanChars_cons_none (st st2 : ScanState) (c : Char) (cs : List Char)
    (h : scanStep st c = (st2, none)) :
    scanChars st (c :: cs) = scanChars st2 cs := by
  simp only [scanChars, h]
  simp

theorem scanEscChar (c : Char) : ∀ (d : Int) (cur : List Char), 0 < d →
    scanChars ⟨true, d, true, false, cur⟩ (escapeChar c)
      = (⟨true, d, true, false, cur ++ escapeChar c⟩, []) := by
  intro d cur hd
  by_cases h1 : c = '"'
  · subst h1
    rw [show escapeChar '"' = ['\\', '"'] from rfl]
    rw [scanChars_cons_none _ _ _ _ (scanStep_bslash _ rfl rfl hd)]
    rw [scanChars_cons_none _ _ _ _ (scanStep_esc _ '"' rfl hd)]
    simp [scanChars]
  · by_cases h2 : c = '\\'
    · subst h2
      rw [show escapeChar '\\' = ['\\', '\\'] from rfl]
      rw [scanChars_cons_none _ _ _ _ (scanStep_bslash _ rfl rfl hd)]
      rw [scanChars_cons_none _ _ _ _ (scanStep_esc _ '\\' rfl hd)]
      simp [scanChars]
    · by_cases h3 : c.toNat < 32
      · have he : escapeChar c
            = ['\\', 'u', '0', '0', toHexDigit (c.toNat / 16), toHexDigit (c.toNat % 16)] := by
          unfold escapeChar
          rw [if_neg h1, if_neg h2, if_pos h3]
        have hh1 := toHexDigit_ne (c.toNat / 16) (by omega)
        have hh2 := toHexDigit_ne (c.toNat % 16) (by omega)
        rw [he]
        rw [scanChars_cons_none _ _ _ _ (scanStep_bslash _ rfl rfl hd)]
        rw [scanChars_cons_none _ _ _ _ (scanStep_esc _ 'u' rfl hd)]
        rw [scanChars_cons_none _ _ _ _
          (scanStep_instring _ '0' rfl rfl (by decide) (by decide) hd)]
        rw [scanChars_cons_none _ _ _ _
          (scanStep_instring _ '0' rfl rfl (by decide) (by decide) hd)]
        rw [scanChars_cons_none _ _ _ _
          (scanStep_instring _ _ rfl rfl hh1.1 hh1.2 hd)]
        rw [scanChars_cons_none _ _ _ _
          (scanStep_instring _ _ rfl rfl hh2.1 hh2.2 hd)]
        simp [scanChars]
      · have he : escapeChar c = [c] := by
          unfold escapeChar
          rw [if_neg h1, if_neg h2, if_neg h3]
        rw [he]
        rw [scanChars_cons_none _ _ _ _ (scanStep_instring _ c rfl rfl h1 h2 hd)]
        simp [scanChars]

theorem scanEscFlat (l : List Char) : ∀ (d : Int) (cur : List Char), 0 < d →
    scanChars ⟨true, d, true, false, cur⟩ ((l.map escapeChar).flatten)
      = (⟨true, d, true, false, cur ++ (l.map escapeChar).flatten⟩, []) := by
  induction l with
  | nil =>
    intro d cur _
    simp [scanChars]
  | cons c t ih =>
    intro d cur hd
    simp only [List.map_cons, List.flatten_cons]
    rw [scanChars_append, scanEscChar c d cur hd]
    dsimp only
    rw [ih d (cur ++ escapeChar c) hd]
    simp [List.append_assoc]

theorem transparent_string (s : String) : Transparent (renderString s) := by
  intro d cur hd
  rw [renderString, List.cons_append]
  rw [scanChars_cons_none _ _ _ _ (scanStep_quote _ rfl hd)]
  rw [scanChars_append]
  rw [show (!false) = true from rfl]
  rw [scanEscFlat s.toList d (cur ++ ['"']) hd]
  dsimp only
  rw [scanChars_cons_none _ _ _ _ (scanStep_quote _ rfl hd)]
  simp [scanChars, List.append_assoc]

theorem numShape_chars (t : String) (h : NumShape t) :
    ∀ c ∈ t.toList, c ≠ '"' ∧ c ≠ '\x7b' ∧ c ≠ '\x7d' := by
  obtain ⟨neg, ip, fp, ep, htok, hneg, hip, hfp, hep⟩ := h
  intro c hc
  rw [htok] at hc
  simp only [List.mem_append] at hc
  rcases hc with ((hc | hc) | hc) | hc
  · rcases hneg with rfl | rfl
    · simp at hc
    · simp only [List.mem_singleton] at hc
      subst hc
      exact ⟨by decide, by decide, by decide⟩
  · have hdig : c.isDigit = true := by
      rcases hip with rfl | ⟨dd, ds, rfl, hdd, _, hds⟩
      · simp only [List.mem_singleton] at hc
        subst hc
        decide
      · rcases List.mem_cons.mp hc with rfl | hmem2
        · exact hdd
        · exact hds c hmem2
    exact ⟨digit_ne c '"' hdig (by decide), digit_ne c '\x7b' hdig (by decide),
      digit_ne c '\x7d' hdig (by decide)⟩
  · rcases hfp with rfl | ⟨ds, rfl, _, hds⟩
    · simp at hc
    · rcases List.mem_cons.mp hc with rfl | hmem2
      · exact ⟨by decide, by decide, by decide⟩
      · have hdig := hds c hmem2
        exact ⟨digit_ne c '"' hdig (by decide), digit_ne c '\x7b' hdig (by decide),
          digit_ne c '\x7d' hdig (by decide)⟩
  · rcases hep with rfl | ⟨e, sgn, ds, rfl, he, hsgn, _, hds⟩
    · simp at hc
    · rcases List.mem_cons.mp hc with rfl | hmem2
      · rcases he with rfl | rfl <;> exact ⟨by decide, by decide, by decide⟩
      · rcases List.mem_append.mp hmem2 with hs | hd2
        · rcases hsgn with rfl | rfl | rfl
          · simp at hs
          · simp only [List.mem_singleton] at hs
            subst hs
            exact ⟨by decide, by decide, by decide⟩
          · simp only [List.mem_singleton] at hs
            subst hs
            exact ⟨by decide, by decide, by decide⟩
        · have hdig := hds c hd2
          exact ⟨digit_ne c '"' hdig (by decide), digit_ne c '\x7b' hdig (by decide),
            digit_ne c '\x7d' hdig (by decide)⟩

theorem transparent_braces (inner : List Char) (h : Transparent inner) :
    Transparent ('\x7b' :: inner ++ ['\x7d']) := by
  intro d cur hd
  simp only [List.cons_append]
  have hstep : scanStep ⟨true, d, false, false, cur⟩ '\x7b'
      = (⟨true, d + 1, false, false, cur ++ ['\x7b']⟩, none) := by
    simp [scanStep]
  rw [scanChars_cons_none _ _ _ _ hstep]
  rw [scanChars_append]
  rw [h (d + 1) (cur ++ ['\x7b']) (by omega)]
  dsimp only
  have hne : ¬ d = 0 := by omega
  have hstep2 : scanStep ⟨true, d + 1, false, false, cur ++ ['\x7b'] ++ inner⟩ '\x7d'
      = (⟨true, d + 1 - 1, false, false, cur ++ ['\x7b'] ++ inner ++ ['\x7d']⟩, none) := by
    simp [scanStep, hne]
  rw [scanChars_cons_none _ _ _ _ hstep2]
  have hdd : d + 1 - 1 = d := by omega
  simp [scanChars, hdd, List.append_assoc]

theorem transparent_listSep (t : List Json)
    (hb : ∀ x ∈ t, Transparent (renderJson x)) : Transparent (renderListSep t) := by
  induction t with
  | nil => exact transparent_nil
  | cons y t2 ih =>
    rw [renderListSep]
    have h2 : Transparent ([','] ++ (renderJson y ++ renderListSep t2)) :=
      transparent_append _ _ (transparent_plain _ (by decide))
        (transparent_append _ _ (hb y (by simp)) (ih (fun z hz => hb z (by simp [hz]))))
    simpa using h2

theorem transparent_fieldsSepAux (t : List (String × Json))
    (hb : ∀ kv ∈ t, Transparent (renderJson kv.2)) :
    Transparent (renderFieldsSep t) := by
  induction t with
  | nil => exact transparent_nil
  | cons y t2 ih =>
    rw [renderFieldsSep]
    have h2 : Transparent ([','] ++ (renderString y.1 ++ ([':'] ++ (renderJson y.2
        ++ renderFieldsSep t2)))) :=
      transparent_append _ _ (transparent_plain _ (by decide))
        (transparent_append _ _ (transparent_string y.1)
          (transparent_append _ _ (transparent_plain _ (by decide))
            (transparent_append _ _ (hb y (by simp))
              (ih (fun z hz => hb z (by simp [hz]))))))
    simpa [List.append_assoc] using h2

/-- The scanner passes through any rendered well-formed value at
positive depth. -/
theorem transparent_render (v : Json) (hv : WFJ v) :
    Transparent (renderJson v) := by
  induction hv with
  | null => exact transparent_plain _ (by decide)
  | bool b => cases b <;> exact transparent_plain _ (by decide)
  | num t ht => exact transparent_plain _ (numShape_chars t ht)
  | str s => exact transparent_string s
  | arr xs hmem ih =>
    have hlist : Transparent (renderList xs) := by
      cases xs with
      | nil => exact transparent_nil
      | cons x t =>
        rw [renderList_cons]
        exact transparent_append _ _ (ih x (by simp))
          (transparent_listSep t (fun z hz => ih z (by simp [hz])))
    have h2 : Transparent (['['] ++ (renderList xs ++ [']'])) :=
      transparent_append _ _ (transparent_plain _ (by decide))
        (transparent_append _ _ hlist (transparent_plain _ (by decide)))
    have h3 : renderJson (.arr xs) = ['['] ++ (renderList xs ++ [']']) := by
      simp [renderJson]
    rw [h3]
    exact h2
  | obj fs hmem hnd ih =>
    have hfields : Transparent (renderFields fs) := by
      cases fs with
      | nil => exact transparent_nil
      | cons kv t =>
        rw [renderFields_cons]
        have h2 : Transparent ((renderString kv.1 ++ (':' :: renderJson kv.2))
            ++ renderFieldsSep t) :=
          transparent_append _ _
            (transparent_append _ _ (transparent_string kv.1)
              (transparent_append [':'] _ (transparent_plain _ (by decide))
                (ih kv (by simp))))
          (transparent_fieldsSepAux t (fun z hz => ih z (by simp [hz])))
        simpa [List.append_assoc] using h2
    rw [show renderJson (.obj fs) = '\x7b' :: renderFields fs ++ ['\x7d'] from rfl]
    exact transparent_braces _ hfields

theorem transparent_renderFields (fs : List (String × Json))
    (hb : ∀ kv ∈ fs, WFJ kv.2) : Transparent (renderFields fs) := by
  cases fs with
  | nil => exact transparent_nil
  | cons kv t =>
    rw [renderFields_cons]
    have h2 : Transparent ((renderString kv.1 ++ (':' :: renderJson kv.2))
        ++ renderFieldsSep t) :=
      transparent_append _ _
        (transparent_append _ _ (transparent_string kv.1)
          (transparent_append [':'] _ (transparent_plain _ (by decide))
            (transparent_render kv.2 (hb kv (by simp)))))
        (transparent_fieldsSepAux t
          (fun z hz => transparent_render z.2 (hb z (by simp [hz]))))
    simpa [List.append_assoc] using h2


/-- A rendered well-formed object at top level: consumed whole, parsed
and yielded, the candidate reset. -/
theorem scanObj_top (fs : List (String × Json)) (h : WFJ (.obj fs)) :
    scanChars ⟨true, 0, false, false, []⟩ (renderJson (.obj fs))
      = (⟨true, 0, false, false, []⟩, [Json.obj fs]) := by
  have hmem : ∀ kv ∈ fs, WFJ kv.2 := by
    cases h with
    | obj _ hm _ => exact hm
  have hparse := tryParseJsonL_render _ h
  rw [show renderJson (.obj fs) = '\x7b' :: renderFields fs ++ ['\x7d'] from rfl] at hparse ⊢
  simp only [List.cons_append] at hparse ⊢
  have hstep : scanStep ⟨true, 0, false, false, []⟩ '\x7b'
      = (⟨true, 1, false, false, ['\x7b']⟩, none) := by
    simp [scanStep]
  rw [scanChars_cons_none _ _ _ _ hstep]
  rw [scanChars_append]
  rw [transparent_renderFields fs hmem 1 ['\x7b'] (by omega)]
  dsimp only
  have hstep2 : scanStep ⟨true, 1, false, false, ['\x7b'] ++ renderFields fs⟩ '\x7d'
      = (⟨true, 0, false, false, []⟩,
         tryParseJsonL ((['\x7b'] ++ renderFields fs) ++ ['\x7d'])) := by
    simp [scanStep]
  simp only [scanChars]
  rw [hstep2]
  dsimp only
  have halign : (['\x7b'] ++ renderFields fs) ++ ['\x7d']
      = '\x7b' :: (renderFields fs ++ ['\x7d']) := by simp
  rw [halign, hparse]
  simp [scanChars]

/-- The elements of a rendered stream of well-formed objects, scanned at
top level: all yielded in order, separators ignored. -/
theorem scanElems_top (os : List Json) :
    (∀ o ∈ os, WFJ o ∧ ∃ fs, o = Json.obj fs) →
    scanChars ⟨true, 0, false, false, []⟩ (renderStreamElems os)
      = (⟨true, 0, false, false, []⟩, os) := by
  induction os with
  | nil =>
    intro _
    simp [renderStreamElems, scanChars]
  | cons o t ih =>
    intro h
    obtain ⟨ho, fs, rfl⟩ := h o (by simp)
    cases t with
    | nil =>
      rw [show renderStreamElems [Json.obj fs] = renderJson (.obj fs) from rfl]
      rw [scanObj_top fs ho]
    | cons o2 t2 =>
      rw [renderStreamElems]
      rw [scanChars_append, scanObj_top fs ho]
      dsimp only
      have hc1 : scanStep ⟨true, 0, false, false, []⟩ ','
          = (⟨true, 0, false, false, []⟩, none) := by
        simp [scanStep]
      have hc2 : scanStep ⟨true, 0, false, false, []⟩ ' '
          = (⟨true, 0, false, false, []⟩, none) := by
        simp [scanStep]
      rw [scanChars_cons_none _ _ _ _ hc1, scanChars_cons_none _ _ _ _ hc2]
      rw [ih (fun z hz => h z (by simp [hz]))]
      simp

/-- A rendered well-formed JSON array of objects, scanned from the
initial state: exactly its objects are yielded, in order. -/
theorem scanArr_top (os : List Json)
    (h : ∀ o ∈ os, WFJ o ∧ ∃ fs, o = Json.obj fs) :
    scanChars scanInit (renderArrStream os) = (⟨true, 0, false, false, []⟩, os) := by
  rw [renderArrStream]
  simp only [List.cons_append]
  have hstep : scanStep scanInit '[' = (⟨true, 0, false, false, []⟩, none) := by
    simp [scanStep, scanInit]
  rw [scanChars_cons_none _ _ _ _ hstep]
  rw [scanChars_append, scanElems_top os h]
  dsimp only
  have hstep2 : scanStep ⟨true, 0, false, false, []⟩ ']'
      = (⟨true, 0, false, false, []⟩, none) := by
    simp [scanStep]
  rw [scanChars_cons_none _ _ _ _ hstep2]
  simp [scanChars]

/-- C8: `parseStreamingJsonArray` is invariant under re-chunking — any two
chunkings of the same character sequence yield the identical object
sequence — and on a stream whose concatenated text is a JSON array of
well-formed objects it yields exactly those top-level objects, in the
order they (and their closing braces) appear; moreover every yielded
value comes from an accumulated candidate that parses, so a partial or
unparseable candidate is never yielded (it is discarded silently). -/
theorem streaming_parser_correct (c1 c2 : List String) (os : List Json)
    (hsame : (c1.map String.toList).flatten = (c2.map String.toList).flatten)
    (harr : (c1.map String.toList).flatten = renderArrStream os)
    (hos : ∀ o ∈ os, WFJ o ∧ ∃ fs, o = Json.obj fs) :
    parseStreamingJsonArray c1 = parseStreamingJsonArray c2
      ∧ parseStreamingJsonArray c1 = os
      ∧ ∀ j ∈ parseStreamingJsonArray c1, ∃ s, tryParseJsonL s = some j := by
  refine ⟨parseStreaming_rechunk c1 c2 hsame, ?_, ?_⟩
  · unfold parseStreamingJsonArray
    rw [scanChunks_eq_scanChars, harr, scanArr_top os hos]
  · intro j hj
    unfold parseStreamingJsonArray at hj
    rw [scanChunks_eq_scanChars] at hj
    exact scanChars_yields_parse _ scanInit j hj

theorem streaming_parser_correct_witness :
    parseStreamingJsonArray ["[\x7b\"key\":\"a\"\x7d, \x7b\"ke", "y\":\"b\"\x7d]"]
        = parseStreamingJsonArray ["[\x7b\"key\":\"a\"\x7d, \x7b\"key\":\"b\"\x7d]"]
      ∧ parseStreamingJsonArray ["[\x7b\"key\":\"a\"\x7d, \x7b\"ke", "y\":\"b\"\x7d]"]
        = [Json.obj [("key", Json.str "a")], Json.obj [("key", Json.str "b")]]
      ∧ ∀ j ∈ parseStreamingJsonArray ["[\x7b\"key\":\"a\"\x7d, \x7b\"ke", "y\":\"b\"\x7d]"],
          ∃ s, tryParseJsonL s = some j :=
  streaming_parser_correct
    ["[\x7b\"key\":\"a\"\x7d, \x7b\"ke", "y\":\"b\"\x7d]"]
    ["[\x7b\"key\":\"a\"\x7d, \x7b\"key\":\"b\"\x7d]"]
    [Json.obj [("key", Json.str "a")], Json.obj [("key", Json.str "b")]]
    (by rfl) (by rfl)
    (by
      intro o ho
      rcases List.mem_cons.mp ho with rfl | ho2
      · refine ⟨WFJ.obj _ ?_ (by decide), _, rfl⟩
        intro kv hkv
        have hkv2 : kv = ("key", Json.str "a") := by simpa using hkv
        subst hkv2
        exact WFJ.str _
      · have ho3 : o = Json.obj [("key", Json.str "b")] := by simpa using ho2
        subst ho3
        refine ⟨WFJ.obj _ ?_ (by decide), _, rfl⟩
        intro kv hkv
        have hkv2 : kv = ("key", Json.str "b") := by simpa using hkv
        subst hkv2
        exact WFJ.str _)
